import Mathlib

/-!
# CCDrAlgorithm: the convergence / termination controller of the CCDr optimiser

A shallow embedding of `src/src/CCDrAlgorithm.h`.

* `unsigned int` fields are natural numbers, kept below `2 ^ 32` by the class
  invariant; arithmetic on them wraps modulo `2 ^ 32` where the source can
  overflow, and the conversions between `int` and `unsigned int` are explicit.
* `double` values are modelled by `Dbl`: the finite values are rationals, the
  results of `+` and `*` are rounded to the nearest binary64 value (ties to
  even, overflow to an infinity), and the infinities and NaN are separate
  constructors.  The sign of zero is not tracked: nothing in the class can
  observe it.
* `std::vector<int> stopFlags` is a list of integers.
* `BlockList` (declared in `BlockList.h`) is a list of blocks, and its
  `shuffle` is a parameter of `setOrder`.
-/

/-! ## binary64 arithmetic -/

/-- Round a rational to the nearest integer, ties to the even neighbour. -/
def roundHalfEven (x : ℚ) : ℤ :=
  let f := ⌊x⌋
  if x - f < 1 / 2 then f
  else if 1 / 2 < x - f then f + 1
  else if f % 2 = 0 then f else f + 1

/-- Exponent of the unit in the last place of the binade that holds `x ≥ 0`:
53 significant bits, and the exponent of the leading bit is at least `-1022`
(below that the values are subnormal and share the spacing `2 ^ (-1074)`). -/
def ulpExp (x : ℚ) : ℤ := max (Int.log 2 x) (-1022) - 52

/-- Round `x ≥ 0` to the nearest multiple of the unit in the last place of its
binade, ties to even; the exponent is not bounded above here. -/
def rndPos (x : ℚ) : ℚ := roundHalfEven (x / 2 ^ ulpExp x) * 2 ^ ulpExp x

/-- Round to nearest, ties to even, with 53 bits of precision. -/
def rnd64 (x : ℚ) : ℚ := if x < 0 then -rndPos (-x) else rndPos x

/-- The values of a C++ `double` (IEEE 754 binary64). -/
inductive Dbl where
  | fin (q : ℚ)
  | pinf
  | ninf
  | nan
deriving DecidableEq

namespace Dbl

/-- The binary64 value nearest to the real number `x`; a rounded magnitude of
`2 ^ 1024` or more overflows to an infinity. -/
def ofRat (x : ℚ) : Dbl :=
  if 2 ^ 1024 ≤ rnd64 x then pinf
  else if rnd64 x ≤ -2 ^ 1024 then ninf
  else fin (rnd64 x)

/-- A double that is a value of the format: an infinity, NaN, or a finite
rational that rounding leaves unchanged. -/
def Valid : Dbl → Prop
  | fin q => ofRat q = fin q
  | _ => True

instance : DecidablePred Valid := fun d =>
  match d with
  | fin q => inferInstanceAs (Decidable (ofRat q = fin q))
  | pinf => isTrue trivial
  | ninf => isTrue trivial
  | nan => isTrue trivial

/-- The conversion of an `unsigned int` to `double` (exact: 32 bits fit in the
53-bit significand). -/
def ofUInt (n : ℕ) : Dbl := fin (n : ℚ)

/-- The function `fabs`. -/
def fabs : Dbl → Dbl
  | fin q => fin |q|
  | pinf => pinf
  | ninf => pinf
  | nan => nan

/-- The operator `+` on doubles. -/
def add : Dbl → Dbl → Dbl
  | fin a, fin b => ofRat (a + b)
  | fin _, pinf => pinf
  | fin _, ninf => ninf
  | pinf, fin _ => pinf
  | pinf, pinf => pinf
  | ninf, fin _ => ninf
  | ninf, ninf => ninf
  | pinf, ninf => nan
  | ninf, pinf => nan
  | nan, _ => nan
  | _, nan => nan

/-- The operator `*` on doubles. -/
def mul : Dbl → Dbl → Dbl
  | fin a, fin b => ofRat (a * b)
  | fin a, pinf => if a = 0 then nan else if 0 < a then pinf else ninf
  | fin a, ninf => if a = 0 then nan else if 0 < a then ninf else pinf
  | pinf, fin b => if b = 0 then nan else if 0 < b then pinf else ninf
  | ninf, fin b => if b = 0 then nan else if 0 < b then ninf else pinf
  | pinf, pinf => pinf
  | pinf, ninf => ninf
  | ninf, pinf => ninf
  | ninf, ninf => pinf
  | nan, _ => nan
  | _, nan => nan

/-- The operator `<` on doubles: false as soon as an operand is NaN. -/
def lt : Dbl → Dbl → Bool
  | fin a, fin b => decide (a < b)
  | fin _, pinf => true
  | ninf, fin _ => true
  | ninf, pinf => true
  | _, _ => false

/-- The operator `>` on doubles. -/
def gt (a b : Dbl) : Bool := lt b a

/-- The operator `<=` on doubles: false as soon as an operand is NaN. -/
def le : Dbl → Dbl → Bool
  | fin a, fin b => decide (a ≤ b)
  | fin _, pinf => true
  | ninf, fin _ => true
  | ninf, pinf => true
  | pinf, pinf => true
  | ninf, ninf => true
  | _, _ => false

/-- The function `round` of `math.h`: the nearest integer, halves away from
zero. -/
def round : Dbl → Dbl
  | fin q => fin (if 0 ≤ q then (⌊q + 1 / 2⌋ : ℤ) else (-⌊-q + 1 / 2⌋ : ℤ))
  | pinf => pinf
  | ninf => ninf
  | nan => nan

/-- The conversion of a `double` to `unsigned int`: the fractional part is
discarded; the conversion is undefined (`none`) when the truncated value is
not a value of `unsigned int`. -/
def toUInt : Dbl → Option ℕ
  | fin q => if -1 < q ∧ q < 2 ^ 32 then some ⌊q⌋.toNat else none
  | _ => none

/-- A finite value of the format: a rational that rounding leaves unchanged
and that does not overflow. -/
def IsFinite : Dbl → Prop
  | fin q => ofRat q = fin q
  | _ => False

end Dbl

/-! ## Machine integers -/

/-- The number of values of a 32-bit `unsigned int`. -/
def UINT_SIZE : ℕ := 2 ^ 32

/-- The conversion of an `int` to `unsigned int`: reduction modulo `2 ^ 32`. -/
def intToUInt (i : ℤ) : ℕ := (i % 2 ^ 32).toNat

/-- The conversion of an `unsigned int` to `int`: values from `2 ^ 31` on wrap
to the negative numbers. -/
def uintToInt (n : ℕ) : ℤ := if n < 2 ^ 31 then (n : ℤ) else (n : ℤ) - 2 ^ 32

/-- The values of an `int`. -/
def IsInt32 (i : ℤ) : Prop := -2 ^ 31 ≤ i ∧ i < 2 ^ 31

instance : DecidablePred IsInt32 := fun i =>
  inferInstanceAs (Decidable (-2 ^ 31 ≤ i ∧ i < 2 ^ 31))

/-! ## The controller -/

/-- Modelled from the spec: `BlockList.h` is not among the sources.  A block
list is an ordered sequence of blocks, each block a vector of `int`
coordinates. -/
abbrev BlockList := List (List ℤ)

/-- The C enumeration named errtype: an integer, of which only the two
enumerators are recognised. -/
abbrev errtype := ℤ

/-- Enumerator `L1` of the enumeration. -/
def L1 : errtype := 0

/-- Enumerator `LINF` of the enumeration. -/
def LINF : errtype := 1

/-- The data members of the class. -/
structure CCDrAlgorithm where
  maxIters : ℕ
  eps : Dbl
  stopFlags : List ℤ
  alpha : Dbl
  maxEdges : ℕ
  numSweeps : ℕ
  L1Error : Dbl
  LinfError : Dbl
  blocks : BlockList
  randomizeOrder : Bool
  updateSigmas_ : Bool
  errorNorm_ : errtype

namespace CCDrAlgorithm

/-- The explicit constructor.  The only step that can be undefined is the
conversion of the rounded product to `unsigned int`. -/
def construct (m : ℕ) (e a : Dbl) (p : ℕ) (b : BlockList) (r u : Bool) (t : errtype) :
    Option CCDrAlgorithm :=
  (Dbl.toUInt (Dbl.round (Dbl.mul a (Dbl.ofUInt p)))).map fun me =>
    { maxIters := m
      eps := e
      alpha := a
      maxEdges := me
      blocks := b
      randomizeOrder := r
      numSweeps := 0
      L1Error := Dbl.fin 0
      LinfError := Dbl.fin 0
      stopFlags := List.replicate 2 0
      updateSigmas_ := u
      errorNorm_ := t }

/-- The class invariant: every `unsigned int` member is a 32-bit value, and
there are two stop flags, each 0 or 1. -/
def Inv (s : CCDrAlgorithm) : Prop :=
  s.maxIters < UINT_SIZE ∧ s.maxEdges < UINT_SIZE ∧ s.numSweeps < UINT_SIZE ∧
    s.stopFlags.length = 2 ∧ ∀ f ∈ s.stopFlags, f = 0 ∨ f = 1

instance : DecidablePred Inv := fun s =>
  inferInstanceAs (Decidable (s.maxIters < UINT_SIZE ∧ s.maxEdges < UINT_SIZE ∧
    s.numSweeps < UINT_SIZE ∧ s.stopFlags.length = 2 ∧ ∀ f ∈ s.stopFlags, f = 0 ∨ f = 1))

/-- Randomise the order of the blocks when so configured; the member function
`shuffle` of the block list is a parameter. -/
def setOrder (shuffle : BlockList → BlockList) (s : CCDrAlgorithm) : CCDrAlgorithm :=
  if s.randomizeOrder then { s with blocks := shuffle s.blocks } else s

/-- The number of blocks. -/
def numBlocks (s : CCDrAlgorithm) : ℕ := s.blocks.length

/-- The block at position `k`; nothing when `k` is out of range. -/
def getBlock (s : CCDrAlgorithm) (k : ℕ) : Option (List ℤ) := s.blocks.get? k

/-- Whether to run another complete sweep: the product of the stop flags,
zeroed when the sweep counter exceeds `maxIters`, is positive. -/
def keepGoing (s : CCDrAlgorithm) : Bool :=
  let prod := s.stopFlags.foldl (fun prod f => prod * f) 1
  let prod := if s.numSweeps > s.maxIters then 0 else prod
  decide (prod > 0)

/-- Whether to keep iterating over the current active set.  In the comparison
of `iters` with the unsigned `maxIters` the `int` is converted to
`unsigned int`. -/
def moar (s : CCDrAlgorithm) (iters : ℤ) : Bool :=
  let error :=
    if s.errorNorm_ = L1 then s.L1Error
    else if s.errorNorm_ = LINF then s.LinfError
    else Dbl.fin (-1)
  Dbl.gt error s.eps && decide (intToUInt iters ≤ s.maxIters)

/-- The threshold on the number of edges, returned as an `int`. -/
def edgeThreshold (s : CCDrAlgorithm) : ℤ := uintToInt s.maxEdges

/-- The accumulated error of the selected norm, `-1` for an unrecognised
norm. -/
def getError (s : CCDrAlgorithm) : Dbl :=
  if s.errorNorm_ = L1 then s.L1Error
  else if s.errorNorm_ = LINF then s.LinfError
  else Dbl.fin (-1)

/-- The stop flag at index `f`; nothing when the index is out of range. -/
def getStopFlag (s : CCDrAlgorithm) (f : ℤ) : Option ℤ :=
  if 0 ≤ f then s.stopFlags.get? f.toNat else none

/-- Record that the active set has changed. -/
def activeSetChanged (s : CCDrAlgorithm) : CCDrAlgorithm :=
  { s with stopFlags := s.stopFlags.set 0 1 }

/-- Record that the active set is below the threshold. -/
def belowThreshold (s : CCDrAlgorithm) : CCDrAlgorithm :=
  { s with stopFlags := s.stopFlags.set 1 1 }

/-- Set all flags to zero. -/
def resetFlags (s : CCDrAlgorithm) : CCDrAlgorithm :=
  { s with stopFlags := s.stopFlags.map fun _ => 0 }

/-- Fold one raw difference into both error accumulators. -/
def updateError (s : CCDrAlgorithm) (e : Dbl) : CCDrAlgorithm :=
  let abse := Dbl.fabs e
  { s with
    L1Error := Dbl.add s.L1Error abse
    LinfError := if Dbl.gt abse s.LinfError then abse else s.LinfError }

/-- Zero both error accumulators. -/
def resetError (s : CCDrAlgorithm) : CCDrAlgorithm :=
  { s with L1Error := Dbl.fin 0, LinfError := Dbl.fin 0 }

/-- Count one more sweep; the unsigned counter wraps. -/
def addSweep (s : CCDrAlgorithm) : CCDrAlgorithm :=
  { s with numSweeps := (s.numSweeps + 1) % UINT_SIZE }

/-- The stored option. -/
def updateSigmas (s : CCDrAlgorithm) : Bool := s.updateSigmas_

/-- Report a list of raw differences, one call of `updateError` each, in
order. -/
def updateErrors (s : CCDrAlgorithm) (es : List Dbl) : CCDrAlgorithm :=
  es.foldl updateError s

/-- Every partial sum of the absolute values, added in order to `a`, is a
finite double: no addition rounds or overflows. -/
def ExactSums : ℚ → List ℚ → Prop
  | _, [] => True
  | a, q :: qs => Dbl.ofRat (a + |q|) = Dbl.fin (a + |q|) ∧ ExactSums (a + |q|) qs

/-- The calls that change the state of a controller. -/
inductive Op where
  | updateError (e : Dbl)
  | resetError
  | resetFlags
  | activeSetChanged
  | belowThreshold
  | addSweep
  | setOrder

/-- The effect of one call. -/
def step (shuffle : BlockList → BlockList) (s : CCDrAlgorithm) : Op → CCDrAlgorithm
  | Op.updateError e => s.updateError e
  | Op.resetError => s.resetError
  | Op.resetFlags => s.resetFlags
  | Op.activeSetChanged => s.activeSetChanged
  | Op.belowThreshold => s.belowThreshold
  | Op.addSweep => s.addSweep
  | Op.setOrder => s.setOrder shuffle

/-- The effect of a sequence of calls, in order. -/
def run (shuffle : BlockList → BlockList) (s : CCDrAlgorithm) (ops : List Op) : CCDrAlgorithm :=
  ops.foldl (step shuffle) s

/-- The number of calls of `addSweep` in a sequence of calls. -/
def sweepCalls : List Op → ℕ
  | [] => 0
  | Op.addSweep :: ops => sweepCalls ops + 1
  | _ :: ops => sweepCalls ops

/-- A call whose argument, if any, is a finite double. -/
def Op.Finite : Op → Prop
  | Op.updateError e => e.IsFinite
  | _ => True

/-- The invariant of the accumulators: LinfError is finite, not negative and
at most L1Error, and L1Error is a value of the format. -/
def ErrInv (s : CCDrAlgorithm) : Prop :=
  ∃ a : ℚ, s.LinfError = Dbl.fin a ∧ 0 ≤ a ∧ Dbl.le (Dbl.fin a) s.L1Error = true ∧
    Dbl.Valid s.L1Error

end CCDrAlgorithm

/-! ## Sample states -/

/-- A controller in the middle of a fit: both flags set, three sweeps done. -/
def midFit : CCDrAlgorithm :=
  { maxIters := 5
    eps := Dbl.fin (1 / 128)
    stopFlags := [1, 1]
    alpha := Dbl.fin (1 / 2)
    maxEdges := 11
    numSweeps := 3
    L1Error := Dbl.fin (1 / 4)
    LinfError := Dbl.fin (1 / 8)
    blocks := [[0, 1], [1, 0]]
    randomizeOrder := false
    updateSigmas_ := true
    errorNorm_ := L1 }

/-- The controller of the scenario, as constructed with maxIters = 5,
eps = 0.01, alpha = 0.3, modelSize = 10 and the L1 norm: the doubles nearest
to 0.01 and 0.3, and maxEdges = 3. -/
def fresh : CCDrAlgorithm :=
  { maxIters := 5
    eps := Dbl.fin (5764607523034235 / 2 ^ 59)
    stopFlags := [0, 0]
    alpha := Dbl.fin (5404319552844595 / 2 ^ 54)
    maxEdges := 3
    numSweeps := 0
    L1Error := Dbl.fin 0
    LinfError := Dbl.fin 0
    blocks := [[0, 1], [1, 0]]
    randomizeOrder := false
    updateSigmas_ := false
    errorNorm_ := L1 }

/-! # Theorems -/

/-! ## Rounding to the nearest integer -/

theorem roundHalfEven_intCast (n : ℤ) : roundHalfEven (n : ℚ) = n := by
  simp [roundHalfEven]

theorem roundHalfEven_add_half (n : ℤ) :
    roundHalfEven ((n : ℚ) + 1 / 2) = if n % 2 = 0 then n else n + 1 := by
  have hf : ⌊(n : ℚ) + 1 / 2⌋ = n := by
    rw [Int.floor_eq_iff]; constructor <;> norm_num
  simp only [roundHalfEven, hf]
  norm_num

theorem roundHalfEven_of_lt {x : ℚ} {n : ℤ} (h : |x - n| < 1 / 2) : roundHalfEven x = n := by
  rw [abs_lt] at h
  obtain ⟨h1, h2⟩ := h
  by_cases hx : (n : ℚ) ≤ x
  · have hf : ⌊x⌋ = n := by
      rw [Int.floor_eq_iff]; constructor <;> linarith
    have h3 : x - (n : ℚ) < 1 / 2 := by linarith
    simp only [roundHalfEven, hf]
    rw [if_pos h3]
  · have hf : ⌊x⌋ = n - 1 := by
      rw [Int.floor_eq_iff]; push_cast; constructor <;> linarith
    have h3 : ¬ x - ((n - 1 : ℤ) : ℚ) < 1 / 2 := by push_cast; linarith
    have h4 : 1 / 2 < x - ((n - 1 : ℤ) : ℚ) := by push_cast; linarith
    simp only [roundHalfEven, hf]
    rw [if_neg h3, if_pos h4]
    ring

theorem roundHalfEven_nonneg {y : ℚ} (h : 0 ≤ y) : 0 ≤ roundHalfEven y := by
  have hf : 0 ≤ ⌊y⌋ := Int.floor_nonneg.mpr h
  unfold roundHalfEven
  simp only
  split_ifs <;> omega

theorem roundHalfEven_le (y : ℚ) : (roundHalfEven y : ℚ) ≤ y + 1 / 2 := by
  have h1 : (⌊y⌋ : ℚ) ≤ y := Int.floor_le y
  unfold roundHalfEven
  simp only
  split_ifs with h2 h3 h4
  · linarith
  · push_cast; linarith
  · linarith
  · push_cast; linarith

theorem roundHalfEven_floor_le (x : ℚ) : ⌊x⌋ ≤ roundHalfEven x := by
  unfold roundHalfEven
  simp only
  split_ifs <;> omega

theorem roundHalfEven_le_floor_succ (x : ℚ) : roundHalfEven x ≤ ⌊x⌋ + 1 := by
  unfold roundHalfEven
  simp only
  split_ifs <;> omega

/-- Rounding to the nearest integer, ties to even, is monotone. -/
theorem roundHalfEven_mono {x y : ℚ} (h : x ≤ y) : roundHalfEven x ≤ roundHalfEven y := by
  have hf : ⌊x⌋ ≤ ⌊y⌋ := Int.floor_mono h
  rcases hf.lt_or_eq with hlt | heq
  · have h1 := roundHalfEven_le_floor_succ x
    have h2 := roundHalfEven_floor_le y
    omega
  · unfold roundHalfEven
    simp only
    rw [← heq]
    split_ifs <;> first | omega | (exfalso; linarith)

/-! ## Rounding to binary64 -/

theorem ulpExp_eq {x : ℚ} {e : ℤ} (h1 : (2 : ℚ) ^ e ≤ x) (h2 : x < (2 : ℚ) ^ (e + 1))
    (he : -1022 ≤ e) : ulpExp x = e - 52 := by
  have hx : 0 < x := lt_of_lt_of_le (by positivity) h1
  have h3 : e ≤ Int.log 2 x := (Int.zpow_le_iff_le_log (by norm_num) hx).mp (by exact_mod_cast h1)
  have h4 : Int.log 2 x < e + 1 := (Int.lt_zpow_iff_log_lt (by norm_num) hx).mp (by exact_mod_cast h2)
  have : Int.log 2 x = e := by omega
  simp [ulpExp, this, he]

theorem ulpExp_nonpos {x : ℚ} (h : x < 2 ^ 53) : ulpExp x ≤ 0 := by
  unfold ulpExp
  rcases le_or_lt x 0 with h0 | h0
  · rw [Int.log_of_right_le_zero 2 h0]; norm_num
  · have : Int.log 2 x < 53 := (Int.lt_zpow_iff_log_lt (by norm_num) h0).mp (by exact_mod_cast h)
    omega

theorem ulpExp_mono {x y : ℚ} (h0 : 0 < x) (h : x ≤ y) : ulpExp x ≤ ulpExp y := by
  unfold ulpExp
  have := Int.log_mono_right (b := 2) h0 h
  omega

theorem lt_two_zpow_ulpExp (x : ℚ) : x < 2 ^ (ulpExp x + 53) := by
  have h1 : x < (2 : ℚ) ^ (Int.log 2 x + 1) := by
    exact_mod_cast Int.lt_zpow_succ_log_self (b := 2) (by norm_num) x
  have h2 : Int.log 2 x + 1 ≤ ulpExp x + 53 := by unfold ulpExp; omega
  exact lt_of_lt_of_le h1 (zpow_le_zpow_right₀ (by norm_num) h2)

theorem two_zpow_ulpExp_le {x : ℚ} (h0 : 0 < x) (hn : -1074 < ulpExp x) :
    (2 : ℚ) ^ (ulpExp x + 52) ≤ x := by
  have h1 : (2 : ℚ) ^ Int.log 2 x ≤ x := by
    exact_mod_cast Int.zpow_log_le_self (b := 2) (by norm_num) h0
  have h2 : ulpExp x + 52 = Int.log 2 x := by unfold ulpExp at hn ⊢; omega
  rw [h2]; exact h1

theorem rndPos_eq {x : ℚ} (e n : ℤ) (h1 : (2 : ℚ) ^ e ≤ x) (h2 : x < (2 : ℚ) ^ (e + 1))
    (he : -1022 ≤ e) (hn : roundHalfEven (x / 2 ^ (e - 52)) = n) :
    rndPos x = n * 2 ^ (e - 52) := by
  simp only [rndPos, ulpExp_eq h1 h2 he, hn]

theorem rndPos_zero : rndPos 0 = 0 := by
  simp [rndPos, roundHalfEven]

theorem rndPos_nonneg {x : ℚ} (h : 0 ≤ x) : 0 ≤ rndPos x := by
  unfold rndPos
  have h1 : 0 ≤ x / 2 ^ ulpExp x := div_nonneg h (by positivity)
  have h2 : (0 : ℚ) ≤ roundHalfEven (x / 2 ^ ulpExp x) := by
    exact_mod_cast roundHalfEven_nonneg h1
  positivity

theorem rndPos_le {x : ℚ} (h : x < 2 ^ 53) : rndPos x ≤ x + 1 / 2 := by
  unfold rndPos
  have hu : (0 : ℚ) < 2 ^ ulpExp x := by positivity
  have hu1 : (2 : ℚ) ^ ulpExp x ≤ 1 := zpow_le_one_of_nonpos₀ (by norm_num) (ulpExp_nonpos h)
  have h1 := roundHalfEven_le (x / 2 ^ ulpExp x)
  calc (roundHalfEven (x / 2 ^ ulpExp x) : ℚ) * 2 ^ ulpExp x
      ≤ (x / 2 ^ ulpExp x + 1 / 2) * 2 ^ ulpExp x := mul_le_mul_of_nonneg_right h1 hu.le
    _ = x + 2 ^ ulpExp x / 2 := by field_simp; ring
    _ ≤ x + 1 / 2 := by linarith

theorem rndPos_le_two_zpow (x : ℚ) : rndPos x ≤ 2 ^ (ulpExp x + 53) := by
  have hu : (0 : ℚ) < 2 ^ ulpExp x := by positivity
  have h1 : x / 2 ^ ulpExp x ≤ ((2 ^ 53 : ℤ) : ℚ) := by
    rw [div_le_iff₀ hu]
    have := lt_two_zpow_ulpExp x
    have e : ((2 ^ 53 : ℤ) : ℚ) * 2 ^ ulpExp x = 2 ^ (ulpExp x + 53) := by
      rw [zpow_add₀ (by norm_num)]; push_cast; ring
    rw [e]; exact this.le
  have h2 : roundHalfEven (x / 2 ^ ulpExp x) ≤ 2 ^ 53 := by
    have := roundHalfEven_mono h1
    rwa [roundHalfEven_intCast] at this
  have h3 : (roundHalfEven (x / 2 ^ ulpExp x) : ℚ) ≤ 2 ^ 53 := by exact_mod_cast h2
  unfold rndPos
  calc (roundHalfEven (x / 2 ^ ulpExp x) : ℚ) * 2 ^ ulpExp x
      ≤ 2 ^ 53 * 2 ^ ulpExp x := mul_le_mul_of_nonneg_right h3 hu.le
    _ = 2 ^ (ulpExp x + 53) := by rw [zpow_add₀ (by norm_num)]; ring

theorem two_zpow_le_rndPos {x : ℚ} (h0 : 0 < x) (hn : -1074 < ulpExp x) :
    (2 : ℚ) ^ (ulpExp x + 52) ≤ rndPos x := by
  have hu : (0 : ℚ) < 2 ^ ulpExp x := by positivity
  have h1 : ((2 ^ 52 : ℤ) : ℚ) ≤ x / 2 ^ ulpExp x := by
    rw [le_div_iff₀ hu]
    have := two_zpow_ulpExp_le h0 hn
    have e : ((2 ^ 52 : ℤ) : ℚ) * 2 ^ ulpExp x = 2 ^ (ulpExp x + 52) := by
      rw [zpow_add₀ (by norm_num)]; push_cast; ring
    rw [e]; exact this
  have h2 : 2 ^ 52 ≤ roundHalfEven (x / 2 ^ ulpExp x) := by
    have := roundHalfEven_mono h1
    rwa [roundHalfEven_intCast] at this
  have h3 : (2 ^ 52 : ℚ) ≤ roundHalfEven (x / 2 ^ ulpExp x) := by exact_mod_cast h2
  unfold rndPos
  calc (2 : ℚ) ^ (ulpExp x + 52) = 2 ^ 52 * 2 ^ ulpExp x := by
        rw [zpow_add₀ (by norm_num)]; ring
    _ ≤ (roundHalfEven (x / 2 ^ ulpExp x) : ℚ) * 2 ^ ulpExp x :=
        mul_le_mul_of_nonneg_right h3 hu.le

theorem rndPos_mono {x y : ℚ} (h0 : 0 ≤ x) (h : x ≤ y) : rndPos x ≤ rndPos y := by
  rcases h0.eq_or_lt with rfl | hx
  · rw [rndPos_zero]; exact rndPos_nonneg h
  · have hy : 0 < y := lt_of_lt_of_le hx h
    rcases (ulpExp_mono hx h).eq_or_lt with he | he
    · unfold rndPos
      rw [he]
      have hu : (0 : ℚ) < 2 ^ ulpExp y := by positivity
      have h1 : x / 2 ^ ulpExp y ≤ y / 2 ^ ulpExp y := div_le_div_of_nonneg_right h hu.le
      have h2 : (roundHalfEven (x / 2 ^ ulpExp y) : ℚ) ≤ roundHalfEven (y / 2 ^ ulpExp y) := by
        exact_mod_cast roundHalfEven_mono h1
      exact mul_le_mul_of_nonneg_right h2 hu.le
    · have hlow : -1074 ≤ ulpExp x := by unfold ulpExp; omega
      have h1 := rndPos_le_two_zpow x
      have h2 := two_zpow_le_rndPos hy (by omega)
      have h3 : (2 : ℚ) ^ (ulpExp x + 53) ≤ 2 ^ (ulpExp y + 52) :=
        zpow_le_zpow_right₀ (by norm_num) (by omega)
      linarith

theorem rnd64_zero : rnd64 0 = 0 := by
  simp [rnd64, rndPos_zero]

theorem rnd64_neg (x : ℚ) : rnd64 (-x) = -rnd64 x := by
  rcases lt_trichotomy x 0 with h | h | h
  · have h1 : ¬ -x < 0 := by linarith
    simp [rnd64, h, h1]
  · subst h; simp [rnd64_zero]
  · have h1 : -x < 0 := by linarith
    have h2 : ¬ x < 0 := by linarith
    simp [rnd64, h1, h2]

/-- Rounding to binary64 is monotone. -/
theorem rnd64_mono {x y : ℚ} (h : x ≤ y) : rnd64 x ≤ rnd64 y := by
  unfold rnd64
  split_ifs with hx hy hy
  · exact neg_le_neg (rndPos_mono (by linarith) (by linarith))
  · have := rndPos_nonneg (x := -x) (by linarith)
    have := rndPos_nonneg (not_lt.mp hy)
    linarith
  · exact absurd (lt_of_le_of_lt h hy) hx
  · exact rndPos_mono (not_lt.mp hx) h

/-- Every natural number below `2 ^ 53` is a binary64 value. -/
theorem rnd64_natCast {n : ℕ} (h : n < 2 ^ 53) : rnd64 (n : ℚ) = n := by
  rcases Nat.eq_zero_or_pos n with rfl | hpos
  · simpa using rnd64_zero
  · have hx : ¬ ((n : ℚ) < 0) := not_lt.mpr (Nat.cast_nonneg n)
    have hlog : Int.log 2 (n : ℚ) = Nat.log 2 n := Int.log_natCast 2 n
    have hl : Nat.log 2 n < 53 := Nat.log_lt_of_lt_pow (by omega) h
    have hu : ulpExp (n : ℚ) = (Nat.log 2 n : ℤ) - 52 := by
      unfold ulpExp; rw [hlog]; omega
    have hq : (n : ℚ) / 2 ^ ulpExp (n : ℚ) = ((n * 2 ^ (52 - Nat.log 2 n) : ℕ) : ℤ) := by
      rw [hu, div_eq_iff (by positivity)]
      push_cast
      rw [mul_assoc, ← zpow_natCast, ← zpow_add₀ (by norm_num)]
      have : ((52 - Nat.log 2 n : ℕ) : ℤ) + ((Nat.log 2 n : ℤ) - 52) = 0 := by omega
      rw [this]; simp
    rw [rnd64, if_neg hx, rndPos, hq, roundHalfEven_intCast, ← hq]
    field_simp

/-! ## Operations on doubles -/

namespace Dbl

theorem lt_irrefl (a : Dbl) : lt a a = false := by
  cases a <;> simp [lt]

theorem gt_self (a : Dbl) : gt a a = false := lt_irrefl a

theorem add_fin_fin (a b : ℚ) : add (fin a) (fin b) = ofRat (a + b) := rfl

theorem mul_fin_fin (a b : ℚ) : mul (fin a) (fin b) = ofRat (a * b) := rfl

theorem ofRat_zero : ofRat 0 = fin 0 := by
  unfold ofRat
  rw [rnd64_zero, if_neg (by norm_num), if_neg (by norm_num)]

theorem ofRat_eq_fin_iff (x : ℚ) :
    ofRat x = fin x ↔ rnd64 x = x ∧ -2 ^ 1024 < x ∧ x < 2 ^ 1024 := by
  unfold ofRat
  constructor
  · intro h
    split_ifs at h with h1 h2
    have hx : rnd64 x = x := by injection h
    rw [hx] at h1 h2
    exact ⟨hx, not_le.mp h2, not_le.mp h1⟩
  · rintro ⟨hx, hlo, hhi⟩
    rw [hx, if_neg (not_le.mpr hhi), if_neg (not_le.mpr hlo)]

theorem ofRat_abs_of_valid {x : ℚ} (h : Valid (fin x)) : ofRat |x| = fin |x| := by
  have h' : ofRat x = fin x := h
  rw [ofRat_eq_fin_iff] at h' ⊢
  obtain ⟨hx, hlo, hhi⟩ := h'
  rcases le_or_lt 0 x with h0 | h0
  · rw [abs_of_nonneg h0]; exact ⟨hx, hlo, hhi⟩
  · rw [abs_of_neg h0, rnd64_neg, hx]
    exact ⟨rfl, by linarith, by linarith⟩

theorem zero_add_abs_of_valid {x : ℚ} (h : Valid (fin x)) :
    add (fin 0) (fin |x|) = fin |x| := by
  simp only [add, zero_add]; exact ofRat_abs_of_valid h

theorem ofRat_eq_of_round {x : ℚ} (e n : ℤ) (h1 : (2 : ℚ) ^ e ≤ x) (h2 : x < (2 : ℚ) ^ (e + 1))
    (he : -1022 ≤ e) (hn : roundHalfEven (x / 2 ^ (e - 52)) = n)
    (hlo : -2 ^ 1024 < (n : ℚ) * 2 ^ (e - 52)) (hhi : (n : ℚ) * 2 ^ (e - 52) < 2 ^ 1024) :
    ofRat x = fin (n * 2 ^ (e - 52)) := by
  have hx : 0 < x := lt_of_lt_of_le (by positivity) h1
  have hr : rnd64 x = n * 2 ^ (e - 52) := by
    rw [rnd64, if_neg (not_lt.mpr hx.le)]
    exact rndPos_eq e n h1 h2 he hn
  unfold ofRat
  rw [hr, if_neg (not_le.mpr hhi), if_neg (not_le.mpr hlo)]

theorem ofRat_exact {x : ℚ} (e n : ℤ) (h1 : (2 : ℚ) ^ e ≤ x) (h2 : x < (2 : ℚ) ^ (e + 1))
    (he : -1022 ≤ e) (hx : x = n * 2 ^ (e - 52)) (hhi : x < 2 ^ 1024) : ofRat x = fin x := by
  have hpos : 0 < x := lt_of_lt_of_le (by positivity) h1
  have hq : x / 2 ^ (e - 52) = (n : ℚ) := by
    rw [hx]; field_simp
  have := ofRat_eq_of_round e n h1 h2 he (by rw [hq, roundHalfEven_intCast])
    (by rw [← hx]; linarith) (by rw [← hx]; exact hhi)
  rw [this, ← hx]

theorem ofRat_of_small {x : ℚ} (h0 : 0 ≤ x) (h : x < 2 ^ 53) :
    ofRat x = fin (rnd64 x) ∧ 0 ≤ rnd64 x ∧ rnd64 x ≤ x + 1 / 2 := by
  have hr : rnd64 x = rndPos x := by rw [rnd64, if_neg (not_lt.mpr h0)]
  have h1 : 0 ≤ rnd64 x := hr ▸ rndPos_nonneg h0
  have h2 : rnd64 x ≤ x + 1 / 2 := hr ▸ rndPos_le h
  refine ⟨?_, h1, h2⟩
  unfold ofRat
  have h53 : (2 : ℚ) ^ 53 + 1 / 2 < 2 ^ 1024 := by norm_num
  rw [if_neg (not_le.mpr (by linarith)), if_neg (not_le.mpr (by linarith))]

theorem ofRat_one : ofRat 1 = fin 1 :=
  ofRat_exact 0 (2 ^ 52) (by norm_num) (by norm_num) (by norm_num) (by norm_num) (by norm_num)

theorem ofRat_two : ofRat 2 = fin 2 :=
  ofRat_exact 1 (2 ^ 52) (by norm_num) (by norm_num) (by norm_num) (by norm_num) (by norm_num)

theorem ofRat_two_pow_53 : ofRat (2 ^ 53) = fin (2 ^ 53) :=
  ofRat_exact 53 (2 ^ 52) (by norm_num) (by norm_num) (by norm_num) (by norm_num) (by norm_num)

theorem ofRat_two_pow_53_add_two : ofRat (2 ^ 53 + 2) = fin (2 ^ 53 + 2) :=
  ofRat_exact 53 (2 ^ 52 + 1) (by norm_num) (by norm_num) (by norm_num) (by norm_num)
    (by norm_num)

theorem ofRat_two_pow_53_add_one : ofRat (2 ^ 53 + 1) = fin (2 ^ 53) := by
  have hq : ((2 : ℚ) ^ 53 + 1) / 2 ^ ((53 : ℤ) - 52) = ((2 ^ 52 : ℤ) : ℚ) + 1 / 2 := by norm_num
  have h := @ofRat_eq_of_round (2 ^ 53 + 1) 53 (2 ^ 52) (by norm_num) (by norm_num)
    (by norm_num) (by rw [hq, roundHalfEven_add_half]; norm_num) (by norm_num) (by norm_num)
  rw [h]; norm_num

theorem ofRat_three_e9 : ofRat 3000000000 = fin 3000000000 :=
  ofRat_exact 31 (3000000000 * 2 ^ 21) (by norm_num) (by norm_num) (by norm_num) (by norm_num)
    (by norm_num)

theorem ofRat_ten_half : ofRat (21 / 2) = fin (21 / 2) :=
  ofRat_exact 3 (21 * 2 ^ 48) (by norm_num) (by norm_num) (by norm_num) (by norm_num)
    (by norm_num)

theorem round_fin_of_nonneg {q : ℚ} (h : 0 ≤ q) : round (fin q) = fin (⌊q + 1 / 2⌋ : ℤ) := by
  simp [round, h]

theorem toUInt_fin_natCast {k : ℕ} (h : k < 2 ^ 32) : toUInt (fin ((k : ℤ) : ℚ)) = some k := by
  have h1 : (-1 : ℚ) < ((k : ℤ) : ℚ) := by
    have : (0 : ℚ) ≤ ((k : ℤ) : ℚ) := by positivity
    linarith
  have h2 : (((k : ℤ) : ℚ)) < 2 ^ 32 := by exact_mod_cast h
  simp only [toUInt, h1, h2, and_self, if_true, Int.floor_intCast, Int.toNat_ofNat]

end Dbl

/-! ## Conversions between int and unsigned int -/

theorem intToUInt_of_nonneg {i : ℤ} (h0 : 0 ≤ i) (h1 : i < 2 ^ 32) :
    (intToUInt i : ℤ) = i := by
  unfold intToUInt
  rw [Int.emod_eq_of_lt h0 h1, Int.toNat_of_nonneg h0]

theorem intToUInt_of_neg {i : ℤ} (h0 : i < 0) (h1 : -2 ^ 32 ≤ i) :
    (intToUInt i : ℤ) = i + 2 ^ 32 := by
  unfold intToUInt
  have h : i % 2 ^ 32 = i + 2 ^ 32 := by
    rw [← Int.add_emod_self]
    exact Int.emod_eq_of_lt (by linarith) (by linarith)
  rw [h, Int.toNat_of_nonneg (by linarith)]

/-! ## The constructor and the class invariant -/

namespace CCDrAlgorithm

theorem Inv.flags {s : CCDrAlgorithm} (h : s.Inv) :
    ∃ f0 f1 : ℤ, s.stopFlags = [f0, f1] ∧ (f0 = 0 ∨ f0 = 1) ∧ (f1 = 0 ∨ f1 = 1) := by
  obtain ⟨-, -, -, hlen, hval⟩ := h
  match hs : s.stopFlags, hlen with
  | [f0, f1], _ =>
    refine ⟨f0, f1, rfl, hval f0 ?_, hval f1 ?_⟩ <;> simp [hs]

/-- The constructor succeeds, with the members it assigns, when the rounded
product is a value of `unsigned int`. -/
theorem construct_of_round (m : ℕ) (e a : Dbl) (p : ℕ) (b : BlockList) (r u : Bool)
    (t : errtype) (k : ℕ) (hk : k < 2 ^ 32)
    (h : Dbl.round (Dbl.mul a (Dbl.ofUInt p)) = Dbl.fin ((k : ℤ) : ℚ)) :
    ∃ s, construct m e a p b r u t = some s ∧ s.maxEdges = k ∧ s.maxIters = m ∧ s.eps = e ∧
      s.alpha = a ∧ s.blocks = b ∧ s.randomizeOrder = r ∧ s.numSweeps = 0 ∧
      s.L1Error = Dbl.fin 0 ∧ s.LinfError = Dbl.fin 0 ∧ s.stopFlags = [0, 0] ∧
      s.updateSigmas_ = u ∧ s.errorNorm_ = t := by
  unfold construct
  rw [h, Dbl.toUInt_fin_natCast hk]
  exact ⟨_, rfl, rfl, rfl, rfl, rfl, rfl, rfl, rfl, rfl, rfl, rfl, rfl, rfl⟩

/-- The constructor establishes the class invariant. -/
theorem construct_inv (m : ℕ) (e a : Dbl) (p : ℕ) (b : BlockList) (r u : Bool) (t : errtype)
    (s : CCDrAlgorithm) (hm : m < UINT_SIZE) (h : construct m e a p b r u t = some s) :
    s.Inv := by
  unfold construct at h
  cases hc : Dbl.toUInt (Dbl.round (Dbl.mul a (Dbl.ofUInt p))) with
  | none => rw [hc] at h; simp at h
  | some me =>
    rw [hc] at h
    simp only [Option.map_some', Option.some.injEq] at h
    have hme : me < UINT_SIZE := by
      cases hd : Dbl.round (Dbl.mul a (Dbl.ofUInt p)) with
      | fin q =>
        rw [hd] at hc
        simp only [Dbl.toUInt] at hc
        split_ifs at hc with hq
        simp only [Option.some.injEq] at hc
        rw [← hc]
        have h1 : ⌊q⌋ < 2 ^ 32 := by
          rw [Int.floor_lt]; push_cast; exact hq.2
        unfold UINT_SIZE
        omega
      | pinf => rw [hd] at hc; simp [Dbl.toUInt] at hc
      | ninf => rw [hd] at hc; simp [Dbl.toUInt] at hc
      | nan => rw [hd] at hc; simp [Dbl.toUInt] at hc
    rw [← h]
    refine ⟨hm, hme, by unfold UINT_SIZE; norm_num, rfl, ?_⟩
    intro f hf
    simp at hf
    exact Or.inl hf

/-- Every call keeps the class invariant. -/
theorem step_inv (shuffle : BlockList → BlockList) (s : CCDrAlgorithm) (op : Op)
    (h : s.Inv) : (s.step shuffle op).Inv := by
  obtain ⟨h1, h2, h3, h4, h5⟩ := h
  obtain ⟨f0, f1, hs⟩ := List.length_eq_two.mp h4
  cases op with
  | updateError e => exact ⟨h1, h2, h3, h4, h5⟩
  | resetError => exact ⟨h1, h2, h3, h4, h5⟩
  | setOrder =>
    simp only [step, setOrder]
    split_ifs
    · exact ⟨h1, h2, h3, h4, h5⟩
    · exact ⟨h1, h2, h3, h4, h5⟩
  | addSweep =>
    exact ⟨h1, h2, Nat.mod_lt _ (by unfold UINT_SIZE; norm_num), h4, h5⟩
  | resetFlags =>
    refine ⟨h1, h2, h3, ?_, ?_⟩
    · simp [step, resetFlags, h4]
    · intro f hf
      simp only [step, resetFlags, List.mem_map] at hf
      obtain ⟨_, _, rfl⟩ := hf
      exact Or.inl rfl
  | activeSetChanged =>
    refine ⟨h1, h2, h3, ?_, ?_⟩
    · simp [step, activeSetChanged, h4]
    · intro f hf
      have h5' := h5
      simp only [step, activeSetChanged, hs, List.set_cons_zero, List.mem_cons,
        List.mem_singleton, List.not_mem_nil, or_false] at hf h5'
      rcases hf with rfl | rfl
      · exact Or.inr rfl
      · exact h5' f (Or.inr (by simp))
  | belowThreshold =>
    refine ⟨h1, h2, h3, ?_, ?_⟩
    · simp [step, belowThreshold, h4]
    · intro f hf
      have h5' := h5
      simp only [step, belowThreshold, hs, List.set_cons_succ, List.set_cons_zero,
        List.mem_cons, List.mem_singleton, List.not_mem_nil, or_false] at hf h5'
      rcases hf with rfl | rfl
      · exact h5' f (Or.inl rfl)
      · exact Or.inr rfl

/-- Every sequence of calls keeps the class invariant. -/
theorem run_inv (shuffle : BlockList → BlockList) (ops : List Op) :
    ∀ s : CCDrAlgorithm, s.Inv → (s.run shuffle ops).Inv := by
  induction ops with
  | nil => intro s h; exact h
  | cons op ops ih => intro s h; exact ih _ (step_inv shuffle s op h)

end CCDrAlgorithm

/-! ## keepGoing -/

namespace CCDrAlgorithm

/-- C1: keepGoing returns true exactly when both stop flags are 1 and the
sweep counter is at most maxIters, and its value is that boolean formula for
every combination of the flags and of the counter against the cap. -/
theorem keepGoing_iff (s : CCDrAlgorithm) (h : s.Inv) :
    (s.keepGoing = true ↔
      s.getStopFlag 0 = some 1 ∧ s.getStopFlag 1 = some 1 ∧ s.numSweeps ≤ s.maxIters) ∧
    s.keepGoing = (decide (s.getStopFlag 0 = some 1) && decide (s.getStopFlag 1 = some 1) &&
      decide (s.numSweeps ≤ s.maxIters)) := by
  obtain ⟨f0, f1, hs, h0, h1⟩ := h.flags
  by_cases hn : s.numSweeps ≤ s.maxIters
  · have hn' : ¬ s.numSweeps > s.maxIters := not_lt.mpr hn
    rcases h0 with rfl | rfl <;> rcases h1 with rfl | rfl <;>
      simp [keepGoing, getStopFlag, hs, hn, hn']
  · have hn' : s.numSweeps > s.maxIters := not_le.mp hn
    simp [keepGoing, getStopFlag, hs, hn, hn']

theorem keepGoing_iff_witness :
    midFit.Inv ∧ (midFit.keepGoing = true ↔
      midFit.getStopFlag 0 = some 1 ∧ midFit.getStopFlag 1 = some 1 ∧
        midFit.numSweeps ≤ midFit.maxIters) :=
  ⟨by decide, (keepGoing_iff midFit (by decide)).1⟩

end CCDrAlgorithm

/-! ## moar -/

namespace CCDrAlgorithm

/-- For an iteration count that is not negative, `moar` is the conjunction of
the two tests; equality of the error with `eps` stops the iteration. -/
theorem moar_iff_of_nonneg (s : CCDrAlgorithm) (i : ℤ) (h0 : 0 ≤ i) (hi : IsInt32 i) :
    (s.moar i = true ↔ Dbl.gt s.getError s.eps = true ∧ i ≤ (s.maxIters : ℤ)) ∧
    (s.getError = s.eps → s.moar i = false) := by
  have hcast : (intToUInt i : ℤ) = i := intToUInt_of_nonneg h0 (by have := hi.2; linarith)
  have hle : intToUInt i ≤ s.maxIters ↔ i ≤ (s.maxIters : ℤ) := by
    rw [← Int.ofNat_le, hcast]
  have hmoar : s.moar i = (Dbl.gt s.getError s.eps && decide (intToUInt i ≤ s.maxIters)) := by
    simp only [moar, getError]
  constructor
  · rw [hmoar]; simp [hle]
  · intro he
    rw [hmoar, he, Dbl.gt_self]; rfl

/-- A negative iteration count always stops the iteration when maxIters is
below 2 ^ 31. -/
theorem moar_of_neg (s : CCDrAlgorithm) (i : ℤ) (h0 : i < 0) (hi : IsInt32 i)
    (hm : s.maxIters < 2 ^ 31) : s.moar i = false := by
  have hcast : (intToUInt i : ℤ) = i + 2 ^ 32 :=
    intToUInt_of_neg h0 (by have := hi.1; linarith)
  have : ¬ intToUInt i ≤ s.maxIters := by
    intro hle
    have h1 : (intToUInt i : ℤ) ≤ (s.maxIters : ℤ) := Int.ofNat_le.mpr hle
    have h2 : (s.maxIters : ℤ) < 2 ^ 31 := by exact_mod_cast hm
    have := hi.1
    linarith
  simp [moar, this]

/-- C2 (failing input): with the L1 norm selected, an accumulated error above
eps and maxIters = 5, the call moar(-1) returns false although -1 <= maxIters:
the int argument is converted to unsigned int for the comparison. -/
theorem moar_neg_one :
    (midFit.errorNorm_ = L1 ∧ Dbl.gt midFit.getError midFit.eps = true ∧
      (-1 : ℤ) ≤ (midFit.maxIters : ℤ)) ∧ midFit.moar (-1) = false := by
  refine ⟨⟨rfl, ?_, by decide⟩, ?_⟩
  · simp [getError, midFit, L1, Dbl.gt, Dbl.lt]; norm_num
  · simp [moar, midFit, L1, Dbl.gt, Dbl.lt, intToUInt]

end CCDrAlgorithm

/-! ## updateError -/

namespace CCDrAlgorithm

theorem updateError_L1_fin (s : CCDrAlgorithm) (q a : ℚ) (ha : s.L1Error = Dbl.fin a) :
    (s.updateError (Dbl.fin q)).L1Error = Dbl.ofRat (a + |q|) := by
  simp [updateError, Dbl.fabs, ha, Dbl.add]

theorem updateError_Linf_fin (s : CCDrAlgorithm) (q b : ℚ) (hb : s.LinfError = Dbl.fin b) :
    (s.updateError (Dbl.fin q)).LinfError = Dbl.fin (max b |q|) := by
  by_cases h : b < |q|
  · simp [updateError, Dbl.fabs, hb, Dbl.gt, Dbl.lt, h, max_eq_right h.le]
  · simp [updateError, Dbl.fabs, hb, Dbl.gt, Dbl.lt, h, max_eq_left (not_lt.mp h)]

/-- C3: updateError adds the absolute value of the raw difference to L1Error
(a double addition: the correctly rounded sum when the accumulator is finite)
and replaces LinfError by the maximum of its previous value and that absolute
value; nothing else changes. -/
theorem updateError_spec (s : CCDrAlgorithm) (q : ℚ) :
    (s.updateError (Dbl.fin q)).L1Error = Dbl.add s.L1Error (Dbl.fin |q|) ∧
    (∀ a : ℚ, s.L1Error = Dbl.fin a →
      (s.updateError (Dbl.fin q)).L1Error = Dbl.ofRat (a + |q|)) ∧
    (∀ b : ℚ, s.LinfError = Dbl.fin b →
      (s.updateError (Dbl.fin q)).LinfError = Dbl.fin (max b |q|)) ∧
    (s.LinfError ≠ Dbl.nan →
      ((s.updateError (Dbl.fin q)).LinfError = s.LinfError ∨
        (s.updateError (Dbl.fin q)).LinfError = Dbl.fin |q|) ∧
      Dbl.le s.LinfError (s.updateError (Dbl.fin q)).LinfError = true ∧
      Dbl.le (Dbl.fin |q|) (s.updateError (Dbl.fin q)).LinfError = true) ∧
    s.updateError (Dbl.fin q) =
      { s with L1Error := (s.updateError (Dbl.fin q)).L1Error
               LinfError := (s.updateError (Dbl.fin q)).LinfError } := by
  refine ⟨rfl, ?_, ?_, ?_, rfl⟩
  · exact fun a ha => updateError_L1_fin s q a ha
  · exact fun b hb => updateError_Linf_fin s q b hb
  · intro hnan
    cases hl : s.LinfError with
    | fin b =>
      by_cases h : b < |q|
      · simp [updateError, Dbl.fabs, hl, Dbl.gt, Dbl.lt, Dbl.le, h, h.le]
      · simp [updateError, Dbl.fabs, hl, Dbl.gt, Dbl.lt, Dbl.le, h, not_lt.mp h]
    | pinf => simp [updateError, Dbl.fabs, hl, Dbl.gt, Dbl.lt, Dbl.le]
    | ninf => simp [updateError, Dbl.fabs, hl, Dbl.gt, Dbl.lt, Dbl.le]
    | nan => exact absurd hl hnan

end CCDrAlgorithm

/-! ## Sequences of updateError -/

namespace CCDrAlgorithm

theorem updateErrors_cons (s : CCDrAlgorithm) (e : Dbl) (es : List Dbl) :
    s.updateErrors (e :: es) = (s.updateError e).updateErrors es := rfl

theorem updateErrors_Linf (qs : List ℚ) : ∀ (s : CCDrAlgorithm) (b : ℚ),
    s.LinfError = Dbl.fin b →
    (s.updateErrors (qs.map Dbl.fin)).LinfError = Dbl.fin ((qs.map abs).foldl max b) := by
  induction qs with
  | nil => intro s b hb; simpa [updateErrors] using hb
  | cons q qs ih =>
    intro s b hb
    rw [List.map_cons, updateErrors_cons, List.map_cons, List.foldl_cons]
    exact ih _ _ (updateError_Linf_fin s q b hb)

theorem updateErrors_L1 (qs : List ℚ) : ∀ (s : CCDrAlgorithm),
    (s.updateErrors (qs.map Dbl.fin)).L1Error =
      (qs.map fun q => Dbl.fin |q|).foldl Dbl.add s.L1Error := by
  induction qs with
  | nil => intro s; rfl
  | cons q qs ih =>
    intro s
    rw [List.map_cons, updateErrors_cons, ih]
    rfl

theorem updateErrors_L1_exact (qs : List ℚ) : ∀ (s : CCDrAlgorithm) (a : ℚ),
    s.L1Error = Dbl.fin a → ExactSums a qs →
    (s.updateErrors (qs.map Dbl.fin)).L1Error = Dbl.fin (a + (qs.map abs).sum) := by
  induction qs with
  | nil => intro s a ha _; simpa [updateErrors] using ha
  | cons q qs ih =>
    intro s a ha hex
    obtain ⟨h1, h2⟩ := hex
    rw [List.map_cons, updateErrors_cons, ih _ (a + |q|) _ h2]
    · simp [add_assoc]
    · rw [updateError_L1_fin s q a ha, h1]

theorem foldl_max_eq_foldr (l : List ℚ) (b : ℚ) : l.foldl max b = l.foldr max b := by
  induction l generalizing b with
  | nil => rfl
  | cons a l ih =>
    rw [List.foldl_cons, List.foldr_cons, ih]
    clear ih
    induction l with
    | nil => simp [max_comm]
    | cons c l ih2 =>
      rw [List.foldr_cons, List.foldr_cons, ih2, max_left_comm]

theorem updateErrors_three (s : CCDrAlgorithm) (a b c : ℚ) :
    (s.resetError.updateErrors [Dbl.fin a, Dbl.fin b, Dbl.fin c]).L1Error =
      Dbl.add (Dbl.add (Dbl.add (Dbl.fin 0) (Dbl.fin |a|)) (Dbl.fin |b|)) (Dbl.fin |c|) := rfl

/-- C4 (counterexample): from zeroed accumulators, the deltas 2^53, 1, 1 leave
L1Error = 2^53, which is not the sum of the absolute values, while their
permutation 1, 1, 2^53 leaves L1Error = 2^53 + 2: the final L1Error depends on
the order of the calls. -/
theorem updateErrors_order_dependent :
    List.Perm [Dbl.fin (2 ^ 53), Dbl.fin 1, Dbl.fin 1] [Dbl.fin 1, Dbl.fin 1, Dbl.fin (2 ^ 53)] ∧
    (midFit.resetError.updateErrors [Dbl.fin (2 ^ 53), Dbl.fin 1, Dbl.fin 1]).L1Error =
      Dbl.fin (2 ^ 53) ∧
    (midFit.resetError.updateErrors [Dbl.fin 1, Dbl.fin 1, Dbl.fin (2 ^ 53)]).L1Error =
      Dbl.fin (2 ^ 53 + 2) ∧
    (midFit.resetError.updateErrors [Dbl.fin (2 ^ 53), Dbl.fin 1, Dbl.fin 1]).L1Error ≠
      (midFit.resetError.updateErrors [Dbl.fin 1, Dbl.fin 1, Dbl.fin (2 ^ 53)]).L1Error := by
  have e1 : |(2 : ℚ) ^ 53| = 2 ^ 53 := abs_of_nonneg (by positivity)
  have e2 : (0 : ℚ) + 2 ^ 53 = 2 ^ 53 := zero_add _
  have e3 : (0 : ℚ) + 1 = 1 := zero_add _
  have e4 : (1 : ℚ) + 1 = 2 := by norm_num
  have e5 : (2 : ℚ) + 2 ^ 53 = 2 ^ 53 + 2 := add_comm _ _
  have ha : (midFit.resetError.updateErrors [Dbl.fin (2 ^ 53), Dbl.fin 1, Dbl.fin 1]).L1Error =
      Dbl.fin (2 ^ 53) := by
    rw [updateErrors_three, abs_one, e1, Dbl.add_fin_fin, e2, Dbl.ofRat_two_pow_53,
      Dbl.add_fin_fin, Dbl.ofRat_two_pow_53_add_one, Dbl.add_fin_fin,
      Dbl.ofRat_two_pow_53_add_one]
  have hb : (midFit.resetError.updateErrors [Dbl.fin 1, Dbl.fin 1, Dbl.fin (2 ^ 53)]).L1Error =
      Dbl.fin (2 ^ 53 + 2) := by
    rw [updateErrors_three, abs_one, e1, Dbl.add_fin_fin, e3, Dbl.ofRat_one,
      Dbl.add_fin_fin, e4, Dbl.ofRat_two, Dbl.add_fin_fin, e5, Dbl.ofRat_two_pow_53_add_two]
  refine ⟨?_, ha, hb, ?_⟩
  · exact @List.perm_append_comm _ [Dbl.fin (2 ^ 53)] [Dbl.fin 1, Dbl.fin 1]
  · rw [ha, hb]
    intro h
    injection h with h
    norm_num at h

/-- C4 (amended): from zeroed accumulators, reporting a list of finite deltas
leaves LinfError equal to the maximum of the absolute values (0 for the empty
list), the same for every permutation of the list, and L1Error equal to the
double-precision sum of the absolute values taken from left to right, which
is their exact sum when no partial sum is rounded; for two deltas x and y that
are doubles, in either order, L1Error is the correctly rounded |x| + |y| and
LinfError is max(|x|, |y|). -/
theorem updateErrors_from_zero (s : CCDrAlgorithm) (qs : List ℚ)
    (h1 : s.L1Error = Dbl.fin 0) (h2 : s.LinfError = Dbl.fin 0) :
    (s.updateErrors (qs.map Dbl.fin)).LinfError = Dbl.fin ((qs.map abs).foldr max 0) ∧
    (s.updateErrors (qs.map Dbl.fin)).L1Error =
      (qs.map fun q => Dbl.fin |q|).foldl Dbl.add (Dbl.fin 0) ∧
    (ExactSums 0 qs → (s.updateErrors (qs.map Dbl.fin)).L1Error = Dbl.fin (qs.map abs).sum) ∧
    (∀ qs' : List ℚ, qs.Perm qs' →
      (s.updateErrors (qs'.map Dbl.fin)).LinfError =
        (s.updateErrors (qs.map Dbl.fin)).LinfError) ∧
    (∀ x y : ℚ, Dbl.Valid (Dbl.fin x) → Dbl.Valid (Dbl.fin y) →
      (s.updateErrors [Dbl.fin x, Dbl.fin y]).L1Error = Dbl.ofRat (|x| + |y|) ∧
      (s.updateErrors [Dbl.fin y, Dbl.fin x]).L1Error = Dbl.ofRat (|x| + |y|) ∧
      (s.updateErrors [Dbl.fin x, Dbl.fin y]).LinfError = Dbl.fin (max |x| |y|) ∧
      (s.updateErrors [Dbl.fin y, Dbl.fin x]).LinfError = Dbl.fin (max |x| |y|)) := by
  have hLinf : ∀ l : List ℚ,
      (s.updateErrors (l.map Dbl.fin)).LinfError = Dbl.fin ((l.map abs).foldr max 0) := by
    intro l
    rw [updateErrors_Linf l s 0 h2, foldl_max_eq_foldr]
  have hpair : ∀ x y : ℚ, Dbl.Valid (Dbl.fin x) →
      (s.updateErrors [Dbl.fin x, Dbl.fin y]).L1Error = Dbl.ofRat (|x| + |y|) := by
    intro x y hx
    have := updateErrors_L1 [x, y] s
    simp only [List.map_cons, List.map_nil, List.foldl_cons, List.foldl_nil] at this
    rw [this, h1, Dbl.zero_add_abs_of_valid hx, Dbl.add_fin_fin]
  have hmax : ∀ x y : ℚ,
      (s.updateErrors [Dbl.fin x, Dbl.fin y]).LinfError = Dbl.fin (max |x| |y|) := by
    intro x y
    have := hLinf [x, y]
    simp only [List.map_cons, List.map_nil, List.foldr_cons, List.foldr_nil] at this
    rw [this, max_eq_left (abs_nonneg y)]
  refine ⟨hLinf qs, ?_, ?_, ?_, ?_⟩
  · rw [updateErrors_L1, h1]
  · intro hex
    rw [updateErrors_L1_exact qs s 0 h1 hex, zero_add]
  · intro qs' hp
    rw [hLinf, hLinf]
    exact congrArg Dbl.fin ((hp.map abs).foldr_eq' (fun a _ b _ z => max_left_comm b a z) 0).symm
  · intro x y hx hy
    refine ⟨hpair x y hx, ?_, hmax x y, ?_⟩
    · rw [hpair y x hy, add_comm]
    · rw [hmax y x, max_comm]

theorem updateErrors_from_zero_witness :
    midFit.resetError.L1Error = Dbl.fin 0 ∧ midFit.resetError.LinfError = Dbl.fin 0 ∧
    (midFit.resetError.updateErrors ([2 ^ 53, -1, 1].map Dbl.fin)).LinfError =
      Dbl.fin (([2 ^ 53, -1, 1].map abs).foldr max 0) :=
  ⟨rfl, rfl, (updateErrors_from_zero midFit.resetError [2 ^ 53, -1, 1] rfl rfl).1⟩

end CCDrAlgorithm

/-! ## edgeThreshold -/

namespace CCDrAlgorithm

/-- For alpha in (0,1] the rounded double product is a natural number that
does not exceed the model size. -/
theorem round_mul_le (a : ℚ) (p : ℕ) (ha0 : 0 < a) (ha1 : a ≤ 1) (hp : p < 2 ^ 32) :
    ∃ k : ℕ, k ≤ p ∧ (k : ℤ) = ⌊rnd64 (a * p) + 1 / 2⌋ ∧
      Dbl.round (Dbl.mul (Dbl.fin a) (Dbl.ofUInt p)) = Dbl.fin ((k : ℤ) : ℚ) := by
  have hp0 : (0 : ℚ) ≤ p := Nat.cast_nonneg p
  have hp53 : p < 2 ^ 53 := lt_trans hp (by norm_num)
  have hp' : (p : ℚ) < 2 ^ 53 := by exact_mod_cast hp53
  have hx0 : 0 ≤ a * p := mul_nonneg ha0.le hp0
  have hxp : a * p ≤ p := by
    have : a * p ≤ 1 * p := mul_le_mul_of_nonneg_right ha1 hp0
    linarith
  obtain ⟨h1, h2, -⟩ := Dbl.ofRat_of_small hx0 (lt_of_le_of_lt hxp hp')
  have h3 : rnd64 (a * p) ≤ p := by
    have := rnd64_mono hxp
    rwa [rnd64_natCast hp53] at this
  have hfl : 0 ≤ ⌊rnd64 (a * p) + 1 / 2⌋ := Int.floor_nonneg.mpr (by linarith)
  obtain ⟨k, hk⟩ := Int.eq_ofNat_of_zero_le hfl
  have hkp : k ≤ p := by
    have : ⌊rnd64 (a * p) + 1 / 2⌋ < (p : ℤ) + 1 := by
      rw [Int.floor_lt]; push_cast; linarith
    omega
  refine ⟨k, hkp, hk.symm, ?_⟩
  rw [Dbl.ofUInt, Dbl.mul_fin_fin, h1, Dbl.round_fin_of_nonneg h2, hk]

/-- C5 (counterexample): with alpha = 1 and modelSize = 3000000000 the rounded
product is 3000000000, the constructor stores it in maxEdges, and
edgeThreshold returns -1294967296. -/
theorem edgeThreshold_wraps :
    Dbl.round (Dbl.mul (Dbl.fin 1) (Dbl.ofUInt 3000000000)) = Dbl.fin 3000000000 ∧
    ∃ s, construct 5 (Dbl.fin 0) (Dbl.fin 1) 3000000000 [] false false L1 = some s ∧
      s.maxEdges = 3000000000 ∧ s.edgeThreshold = -1294967296 ∧
      s.edgeThreshold ≠ 3000000000 := by
  have hr : Dbl.round (Dbl.mul (Dbl.fin 1) (Dbl.ofUInt 3000000000)) =
      Dbl.fin ((3000000000 : ℤ) : ℚ) := by
    have e1 : (1 : ℚ) * ((3000000000 : ℕ) : ℚ) = 3000000000 := by norm_num
    have e2 : ⌊(3000000000 : ℚ) + 1 / 2⌋ = 3000000000 := by
      rw [Int.floor_eq_iff]; constructor <;> norm_num
    rw [Dbl.ofUInt, Dbl.mul_fin_fin, e1, Dbl.ofRat_three_e9,
      Dbl.round_fin_of_nonneg (by norm_num), e2]
  refine ⟨by rw [hr]; norm_num, ?_⟩
  obtain ⟨s, hs, hm, -⟩ := construct_of_round 5 (Dbl.fin 0) (Dbl.fin 1) 3000000000 [] false
    false L1 3000000000 (by norm_num) (by rw [hr]; norm_num)
  refine ⟨s, hs, hm, ?_⟩
  have : s.edgeThreshold = -1294967296 := by
    rw [edgeThreshold, hm]; decide
  exact ⟨this, by rw [this]; decide⟩

/-- C5 (amended): for alpha in (0,1] and a 32-bit modelSize the constructor
stores k = round(alpha × modelSize), the double product rounded to the
nearest integer with halves away from zero, and whenever k is below 2^31
edgeThreshold returns k; alpha = 0.5 and modelSize = 21 give 11. -/
theorem edgeThreshold_eq_round (m : ℕ) (e : Dbl) (a : ℚ) (p : ℕ) (b : BlockList) (r u : Bool)
    (t : errtype) (ha0 : 0 < a) (ha1 : a ≤ 1) (hp : p < 2 ^ 32) :
    (∃ k : ℕ, Dbl.round (Dbl.mul (Dbl.fin a) (Dbl.ofUInt p)) = Dbl.fin ((k : ℤ) : ℚ) ∧
      (k : ℤ) = ⌊rnd64 (a * p) + 1 / 2⌋ ∧
      ∃ s, construct m e (Dbl.fin a) p b r u t = some s ∧ s.maxEdges = k ∧
        (k < 2 ^ 31 → s.edgeThreshold = (k : ℤ))) ∧
    (∃ s, construct m e (Dbl.fin (1 / 2)) 21 b r u t = some s ∧ s.edgeThreshold = 11) := by
  have key : ∀ (a' : ℚ) (p' : ℕ) (k : ℕ), k < 2 ^ 32 →
      Dbl.round (Dbl.mul (Dbl.fin a') (Dbl.ofUInt p')) = Dbl.fin ((k : ℤ) : ℚ) →
      ∃ s, construct m e (Dbl.fin a') p' b r u t = some s ∧ s.maxEdges = k ∧
        (k < 2 ^ 31 → s.edgeThreshold = (k : ℤ)) := by
    intro a' p' k hk hround
    obtain ⟨s, hs, hm, -⟩ := construct_of_round m e (Dbl.fin a') p' b r u t k hk hround
    refine ⟨s, hs, hm, fun hlt => ?_⟩
    rw [edgeThreshold, hm, uintToInt, if_pos hlt]
  constructor
  · obtain ⟨k, hkp, hk, hround⟩ := round_mul_le a p ha0 ha1 hp
    exact ⟨k, hround, hk, key a p k (lt_of_le_of_lt hkp hp) hround⟩
  · have hround : Dbl.round (Dbl.mul (Dbl.fin (1 / 2)) (Dbl.ofUInt 21)) =
        Dbl.fin (((11 : ℕ) : ℤ) : ℚ) := by
      have e1 : (1 / 2 : ℚ) * ((21 : ℕ) : ℚ) = 21 / 2 := by norm_num
      have e2 : ⌊(21 / 2 : ℚ) + 1 / 2⌋ = 11 := by
        rw [Int.floor_eq_iff]; constructor <;> norm_num
      rw [Dbl.ofUInt, Dbl.mul_fin_fin, e1, Dbl.ofRat_ten_half,
        Dbl.round_fin_of_nonneg (by norm_num), e2]
      norm_num
    obtain ⟨s, hs, -, h11⟩ := key (1 / 2) 21 11 (by norm_num) hround
    exact ⟨s, hs, h11 (by norm_num)⟩

theorem edgeThreshold_eq_round_witness :
    (0 : ℚ) < 1 / 2 ∧ (1 / 2 : ℚ) ≤ 1 ∧ 21 < 2 ^ 32 ∧
    ∃ s, construct 5 (Dbl.fin 0) (Dbl.fin (1 / 2)) 21 [] false false L1 = some s ∧
      s.edgeThreshold = 11 :=
  ⟨by norm_num, by norm_num, by norm_num,
    (edgeThreshold_eq_round 5 (Dbl.fin 0) (1 / 2) 21 [] false false L1 (by norm_num)
      (by norm_num) (by norm_num)).2⟩

end CCDrAlgorithm

/-! ## resetError -/

namespace CCDrAlgorithm

/-- C6: resetError zeroes both accumulators whatever they held, so getError
returns 0 for either recognised norm, and every other member keeps its
value. -/
theorem resetError_spec (s : CCDrAlgorithm) :
    s.resetError.L1Error = Dbl.fin 0 ∧ s.resetError.LinfError = Dbl.fin 0 ∧
    (s.errorNorm_ = L1 ∨ s.errorNorm_ = LINF → s.resetError.getError = Dbl.fin 0) ∧
    s.resetError.stopFlags = s.stopFlags ∧ s.resetError.numSweeps = s.numSweeps ∧
    s.resetError.maxIters = s.maxIters ∧ s.resetError.eps = s.eps ∧
    s.resetError.alpha = s.alpha ∧ s.resetError.maxEdges = s.maxEdges ∧
    s.resetError.blocks = s.blocks ∧ s.resetError.randomizeOrder = s.randomizeOrder ∧
    s.resetError.updateSigmas_ = s.updateSigmas_ ∧ s.resetError.errorNorm_ = s.errorNorm_ := by
  refine ⟨rfl, rfl, ?_, rfl, rfl, rfl, rfl, rfl, rfl, rfl, rfl, rfl, rfl⟩
  rintro (h | h) <;> simp [getError, resetError, h, L1, LINF]

end CCDrAlgorithm

/-! ## resetFlags -/

namespace CCDrAlgorithm

/-- C7: after resetFlags both stop flags read 0 and keepGoing returns false,
whatever numSweeps and maxIters are. -/
theorem resetFlags_spec (s : CCDrAlgorithm) (h : s.stopFlags.length = 2) :
    s.resetFlags.getStopFlag 0 = some 0 ∧ s.resetFlags.getStopFlag 1 = some 0 ∧
    s.resetFlags.keepGoing = false := by
  match hs : s.stopFlags, h with
  | [f0, f1], _ =>
    refine ⟨?_, ?_, ?_⟩
    · simp [resetFlags, getStopFlag, hs]
    · simp [resetFlags, getStopFlag, hs]
    · simp only [keepGoing, resetFlags, hs, List.map, List.foldl]
      split_ifs <;> simp

theorem resetFlags_spec_witness :
    midFit.stopFlags.length = 2 ∧ midFit.keepGoing = true ∧
    midFit.resetFlags.getStopFlag 0 = some 0 ∧ midFit.resetFlags.getStopFlag 1 = some 0 ∧
    midFit.resetFlags.keepGoing = false :=
  ⟨rfl, by decide, resetFlags_spec midFit rfl⟩

end CCDrAlgorithm

/-! ## An unrecognised error norm -/

namespace CCDrAlgorithm

/-- C8: with an error norm that is neither L1 nor LINF, getError returns -1
and, for every eps that is not negative, moar returns false for every
iteration count and every value of the accumulators. -/
theorem invalid_norm_spec (s : CCDrAlgorithm) (h1 : s.errorNorm_ ≠ L1)
    (h2 : s.errorNorm_ ≠ LINF) :
    s.getError = Dbl.fin (-1) ∧
    (Dbl.le (Dbl.fin 0) s.eps = true → ∀ (i : ℤ) (l1 linf : Dbl),
      moar { s with L1Error := l1, LinfError := linf } i = false) := by
  constructor
  · simp [getError, h1, h2]
  · intro heps i l1 linf
    have hgt : Dbl.gt (Dbl.fin (-1)) s.eps = false := by
      cases he : s.eps with
      | fin q =>
        rw [he] at heps
        have hq : (0 : ℚ) ≤ q := by simpa [Dbl.le] using heps
        have : ¬ q < -1 := by linarith
        simp [Dbl.gt, Dbl.lt, this]
      | pinf => rfl
      | ninf => rw [he] at heps; simp [Dbl.le] at heps
      | nan => rfl
    simp [moar, h1, h2, hgt]

theorem invalid_norm_spec_witness :
    ({ midFit with errorNorm_ := 7 } : CCDrAlgorithm).getError = Dbl.fin (-1) ∧
    moar { ({ midFit with errorNorm_ := 7 } : CCDrAlgorithm) with
      L1Error := Dbl.fin 1000, LinfError := Dbl.pinf } 1 = false :=
  ⟨(invalid_norm_spec { midFit with errorNorm_ := 7 } (by decide) (by decide)).1,
   (invalid_norm_spec { midFit with errorNorm_ := 7 } (by decide) (by decide)).2
      (by simp [midFit, Dbl.le]) 1 (Dbl.fin 1000) Dbl.pinf⟩

end CCDrAlgorithm

/-! ## The stop flags -/

namespace CCDrAlgorithm

theorem getStopFlag_eq_some_nonneg {s : CCDrAlgorithm} {f v : ℤ}
    (h : s.getStopFlag f = some v) : 0 ≤ f := by
  by_contra hf
  simp [getStopFlag, hf] at h

/-- C9: activeSetChanged sets stopFlags[0] to 1 and leaves stopFlags[1] as it
is, belowThreshold sets stopFlags[1] to 1 and leaves stopFlags[0] as it is,
updateError, resetError, addSweep and setOrder leave the flags as they are,
and a flag that is 0 stays 0 under every call other than its own setter (the
queries are functions of the state and change nothing). -/
theorem stopFlags_frame (shuffle : BlockList → BlockList) (s : CCDrAlgorithm)
    (h : s.stopFlags.length = 2) :
    (s.activeSetChanged.getStopFlag 0 = some 1 ∧
      s.activeSetChanged.getStopFlag 1 = s.getStopFlag 1) ∧
    (s.belowThreshold.getStopFlag 1 = some 1 ∧
      s.belowThreshold.getStopFlag 0 = s.getStopFlag 0) ∧
    (∀ e : Dbl, (s.updateError e).stopFlags = s.stopFlags) ∧
    s.resetError.stopFlags = s.stopFlags ∧
    s.addSweep.stopFlags = s.stopFlags ∧
    (s.setOrder shuffle).stopFlags = s.stopFlags ∧
    (∀ (op : Op) (f : ℤ), s.getStopFlag f = some 0 →
      ¬ (op = Op.activeSetChanged ∧ f = 0) → ¬ (op = Op.belowThreshold ∧ f = 1) →
      (s.step shuffle op).getStopFlag f = some 0) := by
  have hset : (s.setOrder shuffle).stopFlags = s.stopFlags := by
    unfold setOrder; split_ifs <;> rfl
  obtain ⟨f0, f1, hs⟩ := List.length_eq_two.mp h
  · refine ⟨⟨?_, ?_⟩, ⟨?_, ?_⟩, fun _ => rfl, rfl, rfl, hset, ?_⟩
    · simp [activeSetChanged, getStopFlag, hs]
    · simp [activeSetChanged, getStopFlag, hs]
    · simp [belowThreshold, getStopFlag, hs]
    · simp [belowThreshold, getStopFlag, hs]
    · intro op f hf h0 h1
      have hf0 : 0 ≤ f := getStopFlag_eq_some_nonneg hf
      obtain ⟨n, rfl⟩ := Int.eq_ofNat_of_zero_le hf0
      cases op with
      | updateError e => exact hf
      | resetError => exact hf
      | addSweep => exact hf
      | setOrder =>
        simp only [step, getStopFlag, hset] at hf ⊢
        exact hf
      | resetFlags =>
        simp only [getStopFlag, hs, Int.toNat_ofNat] at hf
        simp only [step, resetFlags, getStopFlag, hs, Int.toNat_ofNat]
        match n, hf with
        | 0, _ => simp
        | 1, _ => simp
        | n + 2, hf => simp at hf
      | activeSetChanged =>
        simp only [getStopFlag, hs, Int.toNat_ofNat] at hf
        simp only [step, activeSetChanged, getStopFlag, hs, Int.toNat_ofNat]
        match n, hf, h0 with
        | 0, _, h0 => simp at h0
        | 1, hf, _ => simpa using hf
        | n + 2, hf, _ => simp at hf
      | belowThreshold =>
        simp only [getStopFlag, hs, Int.toNat_ofNat] at hf
        simp only [step, belowThreshold, getStopFlag, hs, Int.toNat_ofNat]
        match n, hf, h1 with
        | 0, hf, _ => simpa using hf
        | 1, _, h1 => simp at h1
        | n + 2, hf, _ => simp at hf

theorem stopFlags_frame_witness :
    midFit.resetFlags.stopFlags.length = 2 ∧
    midFit.resetFlags.activeSetChanged.getStopFlag 0 = some 1 ∧
    midFit.resetFlags.activeSetChanged.getStopFlag 1 = midFit.resetFlags.getStopFlag 1 :=
  ⟨rfl, (stopFlags_frame id midFit.resetFlags rfl).1⟩

end CCDrAlgorithm

/-! ## The sweep counter -/

namespace CCDrAlgorithm

theorem step_numSweeps (shuffle : BlockList → BlockList) (s : CCDrAlgorithm) (op : Op)
    (h : op ≠ Op.addSweep) : (s.step shuffle op).numSweeps = s.numSweeps := by
  cases op with
  | addSweep => exact absurd rfl h
  | setOrder => simp only [step, setOrder]; split_ifs <;> rfl
  | updateError e => rfl
  | resetError => rfl
  | resetFlags => rfl
  | activeSetChanged => rfl
  | belowThreshold => rfl

theorem run_numSweeps (shuffle : BlockList → BlockList) (ops : List Op) :
    ∀ s : CCDrAlgorithm, s.numSweeps + sweepCalls ops < UINT_SIZE →
      (s.run shuffle ops).numSweeps = s.numSweeps + sweepCalls ops := by
  induction ops with
  | nil => intro s _; rfl
  | cons op ops ih =>
    intro s h
    have hrun : s.run shuffle (op :: ops) = (s.step shuffle op).run shuffle ops := rfl
    rw [hrun]
    by_cases hop : op = Op.addSweep
    · subst hop
      have hc : sweepCalls (Op.addSweep :: ops) = sweepCalls ops + 1 := rfl
      rw [hc] at h ⊢
      have h1 : (s.step shuffle Op.addSweep).numSweeps = s.numSweeps + 1 := by
        show (s.numSweeps + 1) % UINT_SIZE = s.numSweeps + 1
        exact Nat.mod_eq_of_lt (by omega)
      rw [ih _ (by rw [h1]; omega), h1]
      omega
    · have hc : sweepCalls (op :: ops) = sweepCalls ops := by
        cases op <;> first | rfl | exact absurd rfl hop
      rw [hc] at h ⊢
      have h1 := step_numSweeps shuffle s op hop
      rw [ih _ (by rw [h1]; exact h), h1]

theorem sweepCalls_append (ops1 ops2 : List Op) :
    sweepCalls (ops1 ++ ops2) = sweepCalls ops1 + sweepCalls ops2 := by
  induction ops1 with
  | nil => simp [sweepCalls]
  | cons op ops ih =>
    cases op <;> simp [sweepCalls, ih]
    omega

/-- C10 (counterexample): on a controller whose counter holds 4294967295,
addSweep leaves numSweeps = 0: the counter is not increased by one, it
decreases. -/
theorem addSweep_wraps :
    ({ midFit with numSweeps := 4294967295 } : CCDrAlgorithm).Inv ∧
    ({ midFit with numSweeps := 4294967295 } : CCDrAlgorithm).addSweep.numSweeps = 0 ∧
    ({ midFit with numSweeps := 4294967295 } : CCDrAlgorithm).addSweep.numSweeps ≠
      ({ midFit with numSweeps := 4294967295 } : CCDrAlgorithm).numSweeps + 1 ∧
    ({ midFit with numSweeps := 4294967295 } : CCDrAlgorithm).addSweep.numSweeps <
      ({ midFit with numSweeps := 4294967295 } : CCDrAlgorithm).numSweeps := by
  refine ⟨by decide, by decide, by decide, by decide⟩

/-- C10 (amended): numSweeps is 0 after construction; addSweep increases it by
exactly one for every prior value below 4294967295 and wraps it to 0 at
4294967295; no other call changes it; hence along every sequence of calls
in which the counter does not reach 2^32 it equals its initial value plus
the number of addSweep calls, and never decreases. -/
theorem numSweeps_spec (shuffle : BlockList → BlockList) (s : CCDrAlgorithm) :
    (∀ (m : ℕ) (e a : Dbl) (p : ℕ) (b : BlockList) (r u : Bool) (t : errtype)
      (s0 : CCDrAlgorithm), construct m e a p b r u t = some s0 → s0.numSweeps = 0) ∧
    (s.numSweeps < 4294967295 → s.addSweep.numSweeps = s.numSweeps + 1) ∧
    (s.numSweeps = 4294967295 → s.addSweep.numSweeps = 0) ∧
    (∀ op : Op, op ≠ Op.addSweep → (s.step shuffle op).numSweeps = s.numSweeps) ∧
    (∀ ops : List Op, s.numSweeps + sweepCalls ops < UINT_SIZE →
      (s.run shuffle ops).numSweeps = s.numSweeps + sweepCalls ops) ∧
    (∀ ops1 ops2 : List Op, s.numSweeps + sweepCalls (ops1 ++ ops2) < UINT_SIZE →
      (s.run shuffle ops1).numSweeps ≤ (s.run shuffle (ops1 ++ ops2)).numSweeps) := by
  refine ⟨?_, ?_, ?_, step_numSweeps shuffle s, fun ops h => run_numSweeps shuffle ops s h, ?_⟩
  · intro m e a p b r u t s0 h
    unfold construct at h
    cases hc : Dbl.toUInt (Dbl.round (Dbl.mul a (Dbl.ofUInt p))) with
    | none => rw [hc] at h; simp at h
    | some me =>
      rw [hc] at h
      simp only [Option.map_some', Option.some.injEq] at h
      rw [← h]
  · intro h
    show (s.numSweeps + 1) % UINT_SIZE = s.numSweeps + 1
    exact Nat.mod_eq_of_lt (by unfold UINT_SIZE; omega)
  · intro h
    show (s.numSweeps + 1) % UINT_SIZE = 0
    rw [h]; rfl
  · intro ops1 ops2 h
    rw [sweepCalls_append] at h
    rw [run_numSweeps shuffle ops1 s (by omega),
      run_numSweeps shuffle (ops1 ++ ops2) s (by rw [sweepCalls_append]; omega),
      sweepCalls_append]
    omega

end CCDrAlgorithm

/-! ## Rounded values are binary64 values -/

theorem ulpExp_ge (x : ℚ) : -1074 ≤ ulpExp x := by
  unfold ulpExp; omega

theorem rndPos_idem {x : ℚ} (h0 : 0 ≤ x) : rndPos (rndPos x) = rndPos x := by
  have hr0 : 0 ≤ rndPos x := rndPos_nonneg h0
  rcases hr0.eq_or_lt with hz | hpos
  · rw [← hz, rndPos_zero]
  · have hx : 0 < x := by
      rcases h0.eq_or_lt with rfl | h
      · rw [rndPos_zero] at hpos; exact absurd hpos (lt_irrefl _)
      · exact h
    have hu := ulpExp_ge x
    rcases (rndPos_le_two_zpow x).eq_or_lt with htop | hlt
    · -- the rounding reached the next power of two
      have he : ulpExp (rndPos x) = ulpExp x + 53 - 52 := by
        apply ulpExp_eq
        · rw [htop]
        · rw [htop]; exact zpow_lt_zpow_right₀ (by norm_num) (by omega)
        · omega
      have hpow : (2 : ℚ) ^ (ulpExp x + 53) = ((2 ^ 52 : ℤ) : ℚ) * 2 ^ (ulpExp x + 53 - 52) := by
        rw [show ulpExp x + 53 = 52 + (ulpExp x + 53 - 52) by ring, zpow_add₀ (by norm_num)]
        norm_num
      have hq : rndPos x / 2 ^ (ulpExp x + 53 - 52) = ((2 ^ 52 : ℤ) : ℚ) := by
        rw [htop, div_eq_iff (by positivity)]; exact hpow
      conv_lhs => rw [rndPos, he, hq, roundHalfEven_intCast]
      rw [htop]; exact hpow.symm
    · -- the rounded value stays in the binade
      have hlog : Int.log 2 (rndPos x) < ulpExp x + 53 :=
        (Int.lt_zpow_iff_log_lt (by norm_num) hpos).mp (by exact_mod_cast hlt)
      have hle : ulpExp (rndPos x) ≤ ulpExp x := by
        unfold ulpExp at hu ⊢; unfold ulpExp at hlog; omega
      have hge : ulpExp x ≤ ulpExp (rndPos x) := by
        rcases hu.eq_or_lt with h74 | h74
        · rw [← h74]; exact ulpExp_ge _
        · have h1 := two_zpow_le_rndPos hx h74
          have h2 : ulpExp x + 52 ≤ Int.log 2 (rndPos x) :=
            (Int.zpow_le_iff_le_log (by norm_num) hpos).mp (by exact_mod_cast h1)
          unfold ulpExp at h2 ⊢; omega
      have he : ulpExp (rndPos x) = ulpExp x := le_antisymm hle hge
      have hq : rndPos x / 2 ^ ulpExp x = (roundHalfEven (x / 2 ^ ulpExp x) : ℚ) := by
        rw [div_eq_iff (by positivity)]; rfl
      conv_lhs => rw [rndPos, he, hq, roundHalfEven_intCast]
      rfl

/-- Rounding to binary64 leaves a rounded value unchanged. -/
theorem rnd64_idem (x : ℚ) : rnd64 (rnd64 x) = rnd64 x := by
  have key : ∀ y : ℚ, 0 ≤ y → rnd64 (rndPos y) = rndPos y := by
    intro y hy
    rw [rnd64, if_neg (not_lt.mpr (rndPos_nonneg hy)), rndPos_idem hy]
  by_cases hx : x < 0
  · have h : rnd64 x = -rndPos (-x) := by rw [rnd64, if_pos hx]
    rw [h, rnd64_neg, key _ (by linarith)]
  · have h : rnd64 x = rndPos x := by rw [rnd64, if_neg hx]
    rw [h, key _ (not_lt.mp hx)]

/-! ## The order on doubles -/

namespace Dbl

theorem lt_of_lt_lt {a b c : Dbl} (h1 : lt a b = true) (h2 : lt b c = true) : lt a c = true := by
  cases a <;> cases b <;> cases c <;> simp_all [lt]
  linarith

theorem lt_of_lt_le {a b c : Dbl} (h1 : lt a b = true) (h2 : le b c = true) :
    lt a c = true := by
  cases a <;> cases b <;> cases c <;> simp_all [lt, le]
  linarith

theorem le_of_le_le {a b c : Dbl} (h1 : le a b = true) (h2 : le b c = true) : le a c = true := by
  cases a <;> cases b <;> cases c <;> simp_all [le]
  linarith

theorem le_refl_of_ne_nan {a : Dbl} (h : a ≠ nan) : le a a = true := by
  cases a <;> simp_all [le]

theorem valid_fin_iff (x : ℚ) :
    Valid (fin x) ↔ rnd64 x = x ∧ -2 ^ 1024 < x ∧ x < 2 ^ 1024 :=
  ofRat_eq_fin_iff x

/-- The result of a rounding is a value of the format. -/
theorem valid_ofRat (x : ℚ) : Valid (ofRat x) := by
  by_cases h1 : (2 : ℚ) ^ 1024 ≤ rnd64 x
  · have h : ofRat x = pinf := by unfold ofRat; rw [if_pos h1]
    rw [h]; trivial
  · by_cases h2 : rnd64 x ≤ -2 ^ 1024
    · have h : ofRat x = ninf := by unfold ofRat; rw [if_neg h1, if_pos h2]
      rw [h]; trivial
    · have h : ofRat x = fin (rnd64 x) := by unfold ofRat; rw [if_neg h1, if_neg h2]
      rw [h]
      exact (valid_fin_iff _).mpr ⟨rnd64_idem x, not_le.mp h2, not_le.mp h1⟩

/-- Rounding a number that is not below a value of the format gives a double
that is not below it either. -/
theorem le_ofRat_of_le {b x : ℚ} (hb : Valid (fin b)) (h : b ≤ x) :
    le (fin b) (ofRat x) = true := by
  obtain ⟨hr, hlo, -⟩ := (valid_fin_iff b).mp hb
  have hm : b ≤ rnd64 x := by
    have := rnd64_mono h
    rwa [hr] at this
  by_cases h1 : (2 : ℚ) ^ 1024 ≤ rnd64 x
  · have h : ofRat x = pinf := by unfold ofRat; rw [if_pos h1]
    rw [h]; rfl
  · have h2 : ¬ rnd64 x ≤ -2 ^ 1024 := not_le.mpr (by linarith)
    have h : ofRat x = fin (rnd64 x) := by unfold ofRat; rw [if_neg h1, if_neg h2]
    rw [h]
    simpa [le] using hm

end Dbl

/-! ## Monotonicity of updateError and the invariant of the accumulators -/

namespace CCDrAlgorithm

theorem updateError_L1_le (s : CCDrAlgorithm) (q : ℚ) (hv : Dbl.Valid s.L1Error)
    (hn : s.L1Error ≠ Dbl.nan) :
    Dbl.le s.L1Error (s.updateError (Dbl.fin q)).L1Error = true := by
  have hL : (s.updateError (Dbl.fin q)).L1Error = Dbl.add s.L1Error (Dbl.fin |q|) := rfl
  rw [hL]
  cases hl : s.L1Error with
  | fin b =>
    rw [hl] at hv
    rw [Dbl.add_fin_fin]
    exact Dbl.le_ofRat_of_le hv (by linarith [abs_nonneg q])
  | pinf => rfl
  | ninf => rfl
  | nan => exact absurd hl hn

theorem updateError_Linf_cases (s : CCDrAlgorithm) (q : ℚ) (hn : s.LinfError ≠ Dbl.nan) :
    ((s.updateError (Dbl.fin q)).LinfError = s.LinfError ∨
      (s.updateError (Dbl.fin q)).LinfError = Dbl.fin |q|) ∧
    Dbl.le s.LinfError (s.updateError (Dbl.fin q)).LinfError = true ∧
    Dbl.le (Dbl.fin |q|) (s.updateError (Dbl.fin q)).LinfError = true := by
  cases hl : s.LinfError with
  | fin b =>
    by_cases h : b < |q|
    · simp [updateError, Dbl.fabs, hl, Dbl.gt, Dbl.lt, Dbl.le, h, h.le]
    · simp [updateError, Dbl.fabs, hl, Dbl.gt, Dbl.lt, Dbl.le, h, not_lt.mp h]
  | pinf => simp [updateError, Dbl.fabs, hl, Dbl.gt, Dbl.lt, Dbl.le]
  | ninf => simp [updateError, Dbl.fabs, hl, Dbl.gt, Dbl.lt, Dbl.le]
  | nan => exact absurd hl hn

theorem moar_eq (s : CCDrAlgorithm) (i : ℤ) :
    s.moar i = (Dbl.gt s.getError s.eps && decide (intToUInt i ≤ s.maxIters)) := by
  simp only [moar, getError]

theorem moar_updateError (s : CCDrAlgorithm) (q : ℚ) (i : ℤ) (hv : Dbl.Valid s.L1Error)
    (h : s.moar i = true) : (s.updateError (Dbl.fin q)).moar i = true := by
  rw [moar_eq, Bool.and_eq_true] at h ⊢
  obtain ⟨hgt, hi⟩ := h
  refine ⟨?_, hi⟩
  have hnorm : (s.updateError (Dbl.fin q)).errorNorm_ = s.errorNorm_ := rfl
  have heps : (s.updateError (Dbl.fin q)).eps = s.eps := rfl
  unfold getError at hgt ⊢
  rw [hnorm, heps]
  unfold Dbl.gt at hgt ⊢
  split_ifs at hgt ⊢ with h1 h2
  · have hn : s.L1Error ≠ Dbl.nan := by
      intro hnan; rw [hnan] at hgt; cases s.eps <;> simp [Dbl.lt] at hgt
    exact Dbl.lt_of_lt_le hgt (updateError_L1_le s q hv hn)
  · have hn : s.LinfError ≠ Dbl.nan := by
      intro hnan; rw [hnan] at hgt; cases s.eps <;> simp [Dbl.lt] at hgt
    exact Dbl.lt_of_lt_le hgt (updateError_Linf_cases s q hn).2.1
  · exact hgt

theorem construct_fields (m : ℕ) (e a : Dbl) (p : ℕ) (b : BlockList) (r u : Bool) (t : errtype)
    (s : CCDrAlgorithm) (h : construct m e a p b r u t = some s) :
    s.maxIters = m ∧ s.eps = e ∧ s.alpha = a ∧ s.blocks = b ∧ s.randomizeOrder = r ∧
    s.numSweeps = 0 ∧ s.L1Error = Dbl.fin 0 ∧ s.LinfError = Dbl.fin 0 ∧ s.stopFlags = [0, 0] ∧
    s.updateSigmas_ = u ∧ s.errorNorm_ = t ∧
    Dbl.toUInt (Dbl.round (Dbl.mul a (Dbl.ofUInt p))) = some s.maxEdges := by
  unfold construct at h
  cases hc : Dbl.toUInt (Dbl.round (Dbl.mul a (Dbl.ofUInt p))) with
  | none => rw [hc] at h; simp at h
  | some me =>
    rw [hc] at h
    simp only [Option.map_some', Option.some.injEq] at h
    rw [← h]
    exact ⟨rfl, rfl, rfl, rfl, rfl, rfl, rfl, rfl, rfl, rfl, rfl, rfl⟩

theorem errInv_of_zero (s : CCDrAlgorithm) (h1 : s.L1Error = Dbl.fin 0)
    (h2 : s.LinfError = Dbl.fin 0) : s.ErrInv := by
  refine ⟨0, h2, le_refl _, ?_, ?_⟩
  · rw [h1]; simp [Dbl.le]
  · rw [h1]; exact Dbl.ofRat_zero

theorem errInv_updateError (s : CCDrAlgorithm) (q : ℚ) (hq : Dbl.IsFinite (Dbl.fin q))
    (h : s.ErrInv) : (s.updateError (Dbl.fin q)).ErrInv := by
  obtain ⟨a, ha, ha0, hle, hv⟩ := h
  have hqv : Dbl.Valid (Dbl.fin |q|) := Dbl.ofRat_abs_of_valid hq
  have hL : (s.updateError (Dbl.fin q)).L1Error = Dbl.add s.L1Error (Dbl.fin |q|) := rfl
  refine ⟨max a |q|, updateError_Linf_fin s q a ha, le_max_of_le_left ha0, ?_, ?_⟩
  · rw [hL]
    cases hl : s.L1Error with
    | fin b =>
      rw [hl] at hle hv
      have hab : a ≤ b := by simpa [Dbl.le] using hle
      rw [Dbl.add_fin_fin]
      rcases max_choice a |q| with hm | hm
      · rw [hm]
        exact Dbl.le_of_le_le hle (Dbl.le_ofRat_of_le hv (by linarith [abs_nonneg q]))
      · rw [hm]
        exact Dbl.le_ofRat_of_le hqv (by linarith)
    | pinf => rfl
    | ninf => rw [hl] at hle; simp [Dbl.le] at hle
    | nan => rw [hl] at hle; simp [Dbl.le] at hle
  · rw [hL]
    cases hl : s.L1Error with
    | fin b => rw [Dbl.add_fin_fin]; exact Dbl.valid_ofRat _
    | pinf => trivial
    | ninf => trivial
    | nan => trivial

theorem errInv_step (shuffle : BlockList → BlockList) (s : CCDrAlgorithm) (op : Op)
    (hop : op.Finite) (h : s.ErrInv) : (s.step shuffle op).ErrInv := by
  cases op with
  | updateError e =>
    cases e with
    | fin q => exact errInv_updateError s q hop h
    | pinf => exact absurd hop id
    | ninf => exact absurd hop id
    | nan => exact absurd hop id
  | resetError => exact errInv_of_zero _ rfl rfl
  | resetFlags => exact h
  | activeSetChanged => exact h
  | belowThreshold => exact h
  | addSweep => exact h
  | setOrder =>
    simp only [step, setOrder]
    split_ifs
    · exact h
    · exact h

theorem errInv_run (shuffle : BlockList → BlockList) (ops : List Op) :
    ∀ s : CCDrAlgorithm, (∀ op ∈ ops, op.Finite) → s.ErrInv → (s.run shuffle ops).ErrInv := by
  induction ops with
  | nil => intro s _ h; exact h
  | cons op ops ih =>
    intro s hops h
    exact ih _ (fun o ho => hops o (List.mem_cons_of_mem _ ho))
      (errInv_step shuffle s op (hops op (List.mem_cons_self _ _)) h)

/-- C17: in every state reached from construction by calls with finite
deltas, 0 <= LinfError <= L1Error (in double arithmetic, the infinite L1Error
of an overflowed sum included); hence L1Error <= eps implies
LinfError <= eps. -/
theorem accumulators_ordered (shuffle : BlockList → BlockList) (m : ℕ) (e a : Dbl) (p : ℕ)
    (b : BlockList) (r u : Bool) (t : errtype) (s0 : CCDrAlgorithm) (ops : List Op)
    (h0 : construct m e a p b r u t = some s0) (hops : ∀ op ∈ ops, op.Finite) :
    Dbl.le (Dbl.fin 0) (s0.run shuffle ops).LinfError = true ∧
    Dbl.le (s0.run shuffle ops).LinfError (s0.run shuffle ops).L1Error = true ∧
    (Dbl.le (s0.run shuffle ops).L1Error (s0.run shuffle ops).eps = true →
      Dbl.le (s0.run shuffle ops).LinfError (s0.run shuffle ops).eps = true) := by
  obtain ⟨-, -, -, -, -, -, h1, h2, -⟩ := construct_fields m e a p b r u t s0 h0
  obtain ⟨x, hx, hx0, hle, -⟩ := errInv_run shuffle ops s0 hops (errInv_of_zero s0 h1 h2)
  rw [hx] at *
  refine ⟨by simpa [Dbl.le] using hx0, hle, fun h => Dbl.le_of_le_le hle h⟩

end CCDrAlgorithm

/-! ## The doubles of the scenario -/

namespace Dbl

theorem ofRat_eq_fin_iff_rnd (x r : ℚ) :
    ofRat x = fin r ↔ rnd64 x = r ∧ -2 ^ 1024 < r ∧ r < 2 ^ 1024 := by
  constructor
  · intro h
    by_cases h1 : (2 : ℚ) ^ 1024 ≤ rnd64 x
    · have h' : ofRat x = pinf := by unfold ofRat; rw [if_pos h1]
      rw [h'] at h; exact absurd h (by simp)
    · by_cases h2 : rnd64 x ≤ -2 ^ 1024
      · have h' : ofRat x = ninf := by unfold ofRat; rw [if_neg h1, if_pos h2]
        rw [h'] at h; exact absurd h (by simp)
      · have h' : ofRat x = fin (rnd64 x) := by unfold ofRat; rw [if_neg h1, if_neg h2]
        rw [h'] at h
        have hr : rnd64 x = r := by injection h
        rw [hr] at h1 h2
        exact ⟨hr, not_le.mp h2, not_le.mp h1⟩
  · rintro ⟨hr, hlo, hhi⟩
    unfold ofRat
    rw [hr, if_neg (not_le.mpr hhi), if_neg (not_le.mpr hlo)]

theorem ofRat_neg_of_fin {x r : ℚ} (h : ofRat x = fin r) : ofRat (-x) = fin (-r) := by
  rw [ofRat_eq_fin_iff_rnd] at h ⊢
  obtain ⟨hr, hlo, hhi⟩ := h
  exact ⟨by rw [rnd64_neg, hr], by linarith, by linarith⟩

theorem ofRat_of_near {x : ℚ} (e n : ℤ) (h1 : (2 : ℚ) ^ e ≤ x) (h2 : x < (2 : ℚ) ^ (e + 1))
    (he : -1022 ≤ e) (hn : |x / 2 ^ (e - 52) - n| < 1 / 2)
    (hlo : -2 ^ 1024 < (n : ℚ) * 2 ^ (e - 52)) (hhi : (n : ℚ) * 2 ^ (e - 52) < 2 ^ 1024) :
    ofRat x = fin (n * 2 ^ (e - 52)) :=
  ofRat_eq_of_round e n h1 h2 he (roundHalfEven_of_lt hn) hlo hhi

theorem ofRat_001 : ofRat (1 / 100) = fin (5764607523034235 / 2 ^ 59) := by
  have h := @ofRat_of_near (1 / 100) (-7) 5764607523034235 (by norm_num) (by norm_num)
    (by norm_num) (by norm_num [abs_lt]) (by norm_num) (by norm_num)
  rw [h]; norm_num

theorem ofRat_03 : ofRat (3 / 10) = fin (5404319552844595 / 2 ^ 54) := by
  have h := @ofRat_of_near (3 / 10) (-2) 5404319552844595 (by norm_num) (by norm_num)
    (by norm_num) (by norm_num [abs_lt]) (by norm_num) (by norm_num)
  rw [h]; norm_num

theorem ofRat_002 : ofRat (2 / 100) = fin (5764607523034235 / 2 ^ 58) := by
  have h := @ofRat_of_near (2 / 100) (-6) 5764607523034235 (by norm_num) (by norm_num)
    (by norm_num) (by norm_num [abs_lt]) (by norm_num) (by norm_num)
  rw [h]; norm_num

theorem ofRat_0005 : ofRat (5 / 1000) = fin (5764607523034235 / 2 ^ 60) := by
  have h := @ofRat_of_near (5 / 1000) (-8) 5764607523034235 (by norm_num) (by norm_num)
    (by norm_num) (by norm_num [abs_lt]) (by norm_num) (by norm_num)
  rw [h]; norm_num

theorem ofRat_0025 : ofRat (25 / 1000) = fin (7205759403792794 / 2 ^ 58) := by
  have h := @ofRat_of_near (25 / 1000) (-6) 7205759403792794 (by norm_num) (by norm_num)
    (by norm_num) (by norm_num [abs_lt]) (by norm_num) (by norm_num)
  rw [h]; norm_num

theorem ofRat_d002 :
    ofRat (5764607523034235 / 2 ^ 58) = fin (5764607523034235 / 2 ^ 58) :=
  ofRat_exact (-6) 5764607523034235 (by norm_num) (by norm_num) (by norm_num) (by norm_num)
    (by norm_num)

theorem ofRat_d002_add_d0005 :
    ofRat (5764607523034235 / 2 ^ 58 + 5764607523034235 / 2 ^ 60) =
      fin (7205759403792794 / 2 ^ 58) := by
  have h := @ofRat_of_near (5764607523034235 / 2 ^ 58 + 5764607523034235 / 2 ^ 60) (-6)
    7205759403792794 (by norm_num) (by norm_num) (by norm_num) (by norm_num [abs_lt])
    (by norm_num) (by norm_num)
  rw [h]; norm_num

theorem ofRat_d03_mul_ten : ofRat (5404319552844595 / 2 ^ 54 * 10) = fin 3 := by
  have h := @ofRat_of_near (5404319552844595 / 2 ^ 54 * 10) 1 6755399441055744
    (by norm_num) (by norm_num) (by norm_num) (by norm_num [abs_lt]) (by norm_num)
    (by norm_num)
  rw [h]; norm_num

end Dbl

/-! ## The fresh controller -/

namespace CCDrAlgorithm

/-- The constructor call of the scenario, for any maxIters. -/
theorem construct_scenario (m : ℕ) :
    construct m (Dbl.ofRat (1 / 100)) (Dbl.ofRat (3 / 10)) 10 [[0, 1], [1, 0]] false false L1 =
      some { fresh with maxIters := m } := by
  have e1 : (5404319552844595 / 2 ^ 54 : ℚ) * ((10 : ℕ) : ℚ) = 5404319552844595 / 2 ^ 54 * 10 := by
    norm_num
  have e2 : ⌊(3 : ℚ) + 1 / 2⌋ = ((3 : ℕ) : ℤ) := by
    rw [Int.floor_eq_iff]; constructor <;> norm_num
  unfold construct
  rw [Dbl.ofRat_001, Dbl.ofRat_03, Dbl.ofUInt, Dbl.mul_fin_fin, e1, Dbl.ofRat_d03_mul_ten,
    Dbl.round_fin_of_nonneg (by norm_num), e2, Dbl.toUInt_fin_natCast (by norm_num)]
  rfl

theorem construct_fresh :
    construct 5 (Dbl.ofRat (1 / 100)) (Dbl.ofRat (3 / 10)) 10 [[0, 1], [1, 0]] false false L1 =
      some fresh :=
  construct_scenario 5

theorem iterate_addSweep (n : ℕ) (s : CCDrAlgorithm) (h : s.numSweeps < UINT_SIZE) :
    addSweep^[n] s = { s with numSweeps := (s.numSweeps + n) % UINT_SIZE } := by
  induction n with
  | zero =>
    have : (s.numSweeps + 0) % UINT_SIZE = s.numSweeps := Nat.mod_eq_of_lt h
    rw [this]; rfl
  | succ n ih =>
    rw [Function.iterate_succ_apply', ih]
    have : ((s.numSweeps + n) % UINT_SIZE + 1) % UINT_SIZE = (s.numSweeps + (n + 1)) % UINT_SIZE := by
      unfold UINT_SIZE; omega
    simp only [addSweep, this]

theorem keepGoing_of_flag_zero (s : CCDrAlgorithm) (f0 f1 : ℤ) (hs : s.stopFlags = [f0, f1])
    (h : f0 = 0 ∨ f1 = 0) : s.keepGoing = false := by
  simp only [keepGoing, hs, List.foldl]
  rcases h with rfl | rfl <;> split_ifs <;> simp

theorem keepGoing_of_flags_set (s : CCDrAlgorithm) (hs : s.stopFlags = [1, 1]) :
    s.keepGoing = decide (s.numSweeps ≤ s.maxIters) := by
  simp only [keepGoing, hs, List.foldl]
  by_cases h : s.numSweeps ≤ s.maxIters
  · simp [h, not_lt.mpr h]
  · simp [h, not_le.mp h]

/-- C11: the constructor leaves numSweeps = 0, both stop flags 0 and both
accumulators 0, so on the fresh controller keepGoing returns false and
getError returns 0 for either recognised norm; the constructor is defined for
every alpha in (0,1] and every 32-bit modelSize. -/
theorem construct_spec (m : ℕ) (e a : Dbl) (p : ℕ) (b : BlockList) (r u : Bool) (t : errtype)
    (s : CCDrAlgorithm) (h : construct m e a p b r u t = some s) :
    (s.numSweeps = 0 ∧ s.getStopFlag 0 = some 0 ∧ s.getStopFlag 1 = some 0 ∧
      s.stopFlags.length = 2 ∧ s.L1Error = Dbl.fin 0 ∧ s.LinfError = Dbl.fin 0 ∧
      s.keepGoing = false ∧ (t = L1 ∨ t = LINF → s.getError = Dbl.fin 0)) ∧
    (∀ q : ℚ, 0 < q → q ≤ 1 → p < 2 ^ 32 →
      ∃ s1, construct m e (Dbl.fin q) p b r u t = some s1) := by
  obtain ⟨-, -, -, -, -, hn, h1, h2, hf, -, ht, -⟩ := construct_fields m e a p b r u t s h
  refine ⟨⟨hn, ?_, ?_, ?_, h1, h2, keepGoing_of_flag_zero s 0 0 hf (Or.inl rfl), ?_⟩, ?_⟩
  · simp [getStopFlag, hf]
  · simp [getStopFlag, hf]
  · rw [hf]; rfl
  · rintro (rfl | rfl)
    · simp [getError, ht, h1]
    · simp [getError, ht, h2, L1, LINF]
  · intro q hq0 hq1 hp
    obtain ⟨k, hkp, -, hround⟩ := round_mul_le q p hq0 hq1 hp
    obtain ⟨s1, hs1, -⟩ := construct_of_round m e (Dbl.fin q) p b r u t k
      (lt_of_le_of_lt hkp hp) hround
    exact ⟨s1, hs1⟩

theorem construct_spec_witness :
    fresh.numSweeps = 0 ∧ fresh.getStopFlag 0 = some 0 ∧ fresh.getStopFlag 1 = some 0 ∧
      fresh.stopFlags.length = 2 ∧ fresh.L1Error = Dbl.fin 0 ∧ fresh.LinfError = Dbl.fin 0 ∧
      fresh.keepGoing = false ∧ (L1 = L1 ∨ L1 = LINF → fresh.getError = Dbl.fin 0) :=
  (construct_spec 5 (Dbl.ofRat (1 / 100)) (Dbl.ofRat (3 / 10)) 10 [[0, 1], [1, 0]] false false
    L1 fresh construct_fresh).1

end CCDrAlgorithm

/-! ## A single setter -/

namespace CCDrAlgorithm

theorem iterate_activeSetChanged (n : ℕ) (s : CCDrAlgorithm) (h : s.stopFlags = [0, 0]) :
    ∃ f0 : ℤ, (activeSetChanged^[n] s).stopFlags = [f0, 0] := by
  induction n with
  | zero => exact ⟨0, h⟩
  | succ n ih =>
    obtain ⟨f0, hf⟩ := ih
    rw [Function.iterate_succ_apply']
    exact ⟨1, by simp [activeSetChanged, hf]⟩

theorem iterate_belowThreshold (n : ℕ) (s : CCDrAlgorithm) (h : s.stopFlags = [0, 0]) :
    ∃ f1 : ℤ, (belowThreshold^[n] s).stopFlags = [0, f1] := by
  induction n with
  | zero => exact ⟨0, h⟩
  | succ n ih =>
    obtain ⟨f1, hf⟩ := ih
    rw [Function.iterate_succ_apply']
    exact ⟨1, by simp [belowThreshold, hf]⟩

/-- C12: after resetFlags followed by any number of calls of only one of the
two setters keepGoing returns false, whatever the sweep counter; in
particular after resetFlags and one activeSetChanged. -/
theorem single_setter_blocks (s : CCDrAlgorithm) (h : s.stopFlags.length = 2) (n : ℕ) :
    (activeSetChanged^[n] s.resetFlags).keepGoing = false ∧
    (belowThreshold^[n] s.resetFlags).keepGoing = false ∧
    s.resetFlags.activeSetChanged.keepGoing = false := by
  obtain ⟨f0, f1, hs⟩ := List.length_eq_two.mp h
  have hr : s.resetFlags.stopFlags = [0, 0] := by simp [resetFlags, hs]
  obtain ⟨g0, hg⟩ := iterate_activeSetChanged n s.resetFlags hr
  obtain ⟨g1, hg1⟩ := iterate_belowThreshold n s.resetFlags hr
  refine ⟨keepGoing_of_flag_zero _ g0 0 hg (Or.inr rfl),
    keepGoing_of_flag_zero _ 0 g1 hg1 (Or.inl rfl), ?_⟩
  exact keepGoing_of_flag_zero _ 1 0 (by simp [activeSetChanged, hr]) (Or.inr rfl)

theorem single_setter_blocks_witness :
    midFit.stopFlags.length = 2 ∧ midFit.keepGoing = true ∧
    midFit.resetFlags.activeSetChanged.keepGoing = false :=
  ⟨rfl, by decide, (single_setter_blocks midFit rfl 1).2.2⟩

end CCDrAlgorithm

/-! ## The sweep cap -/

namespace CCDrAlgorithm

theorem sweeps_with_flags_set (n : ℕ) (s0 : CCDrAlgorithm) (hf : s0.stopFlags = [0, 0])
    (hn : s0.numSweeps = 0) :
    (addSweep^[n] s0.activeSetChanged.belowThreshold).numSweeps = n % UINT_SIZE ∧
    (addSweep^[n] s0.activeSetChanged.belowThreshold).keepGoing =
      decide (n % UINT_SIZE ≤ s0.maxIters) := by
  have h0 : s0.activeSetChanged.belowThreshold.numSweeps = 0 := hn
  have hs : addSweep^[n] s0.activeSetChanged.belowThreshold =
      { s0.activeSetChanged.belowThreshold with numSweeps := n % UINT_SIZE } := by
    rw [iterate_addSweep n _ (by rw [h0]; unfold UINT_SIZE; norm_num), h0, Nat.zero_add]
  rw [hs]
  refine ⟨rfl, ?_⟩
  rw [keepGoing_of_flags_set _ (by simp [activeSetChanged, belowThreshold, hf])]
  rfl

/-- C13 (counterexample): with maxIters = 4294967295 and both flags set, after
maxIters + 1 = 4294967296 calls of addSweep from construction the counter has
wrapped to 0 and keepGoing still returns true. -/
theorem keepGoing_past_cap_wraps :
    construct 4294967295 (Dbl.ofRat (1 / 100)) (Dbl.ofRat (3 / 10)) 10 [[0, 1], [1, 0]] false
      false L1 = some { fresh with maxIters := 4294967295 } ∧
    (addSweep^[4294967295 + 1]
      ({ fresh with maxIters := 4294967295 } : CCDrAlgorithm).activeSetChanged.belowThreshold
      ).numSweeps = 0 ∧
    (addSweep^[4294967295 + 1]
      ({ fresh with maxIters := 4294967295 } : CCDrAlgorithm).activeSetChanged.belowThreshold
      ).keepGoing = true := by
  obtain ⟨h1, h2⟩ := sweeps_with_flags_set (4294967295 + 1)
    ({ fresh with maxIters := 4294967295 } : CCDrAlgorithm) rfl rfl
  refine ⟨construct_scenario 4294967295, ?_, ?_⟩
  · rw [h1]; decide
  · rw [h2]; decide

/-- C13 (amended): for every maxIters below 4294967295, on a controller with
both stop flags set, after exactly maxIters calls of addSweep from
construction the counter equals maxIters and keepGoing returns true, and
after exactly maxIters + 1 calls the counter equals maxIters + 1 and
keepGoing returns false; for maxIters = 4294967295 the first half still
holds. -/
theorem keepGoing_at_cap (m : ℕ) (e a : Dbl) (p : ℕ) (b : BlockList) (r u : Bool) (t : errtype)
    (s0 : CCDrAlgorithm) (h0 : construct m e a p b r u t = some s0) (hm : m < UINT_SIZE) :
    ((addSweep^[m] s0.activeSetChanged.belowThreshold).numSweeps = m ∧
      (addSweep^[m] s0.activeSetChanged.belowThreshold).keepGoing = true) ∧
    (m < 4294967295 →
      (addSweep^[m + 1] s0.activeSetChanged.belowThreshold).numSweeps = m + 1 ∧
      (addSweep^[m + 1] s0.activeSetChanged.belowThreshold).keepGoing = false) := by
  obtain ⟨hmax, -, -, -, -, hn, -, -, hf, -⟩ := construct_fields m e a p b r u t s0 h0
  constructor
  · obtain ⟨h1, h2⟩ := sweeps_with_flags_set m s0 hf hn
    have hmod : m % UINT_SIZE = m := Nat.mod_eq_of_lt hm
    rw [h1, h2, hmod, hmax]
    exact ⟨rfl, by simp⟩
  · intro hlt
    obtain ⟨h1, h2⟩ := sweeps_with_flags_set (m + 1) s0 hf hn
    have hmod : (m + 1) % UINT_SIZE = m + 1 := Nat.mod_eq_of_lt (by unfold UINT_SIZE; omega)
    rw [h1, h2, hmod, hmax]
    exact ⟨rfl, by simp⟩

theorem keepGoing_at_cap_witness :
    (5 : ℕ) < UINT_SIZE ∧
    (addSweep^[5] fresh.activeSetChanged.belowThreshold).numSweeps = 5 ∧
    (addSweep^[5] fresh.activeSetChanged.belowThreshold).keepGoing = true ∧
    (addSweep^[5 + 1] fresh.activeSetChanged.belowThreshold).keepGoing = false :=
  ⟨by decide,
    (keepGoing_at_cap 5 _ _ 10 _ false false L1 fresh construct_fresh (by decide)).1.1,
    (keepGoing_at_cap 5 _ _ 10 _ false false L1 fresh construct_fresh (by decide)).1.2,
    ((keepGoing_at_cap 5 _ _ 10 _ false false L1 fresh construct_fresh (by decide)).2
      (by decide)).2⟩

end CCDrAlgorithm

/-! ## The scenario of the inner iteration -/

namespace CCDrAlgorithm

theorem getError_of_L1 (s : CCDrAlgorithm) (h : s.errorNorm_ = L1) : s.getError = s.L1Error := by
  simp [getError, h]

theorem getError_of_LINF (s : CCDrAlgorithm) (h : s.errorNorm_ = LINF) :
    s.getError = s.LinfError := by
  simp [getError, h, L1, LINF]

theorem gt_zero_of_nonneg {e : Dbl} (h : Dbl.le (Dbl.fin 0) e = true) :
    Dbl.gt (Dbl.fin 0) e = false := by
  cases e with
  | fin q =>
    have hq : (0 : ℚ) ≤ q := by simpa [Dbl.le] using h
    simp [Dbl.gt, Dbl.lt, not_lt.mpr hq]
  | pinf => rfl
  | ninf => simp [Dbl.le] at h
  | nan => rfl

/-- After resetError, with a recognised norm and eps not negative, the error
is 0 and moar stops for every iteration count. -/
theorem moar_resetError (s : CCDrAlgorithm) (hn : s.errorNorm_ = L1 ∨ s.errorNorm_ = LINF)
    (he : Dbl.le (Dbl.fin 0) s.eps = true) (i : ℤ) :
    s.resetError.getError = Dbl.fin 0 ∧ s.resetError.moar i = false := by
  have hg : s.resetError.getError = Dbl.fin 0 := by
    rcases hn with h | h
    · exact getError_of_L1 s.resetError h
    · exact getError_of_LINF s.resetError h
  refine ⟨hg, ?_⟩
  have heps : s.resetError.eps = s.eps := rfl
  rw [moar_eq, hg, heps, gt_zero_of_nonneg he]
  rfl

theorem scenario_first : (fresh.updateError (Dbl.ofRat (2 / 100))).L1Error =
    Dbl.fin (5764607523034235 / 2 ^ 58) := by
  have e1 : (0 : ℚ) + |5764607523034235 / 2 ^ 58| = 5764607523034235 / 2 ^ 58 := by
    rw [zero_add, abs_of_nonneg (by norm_num)]
  rw [Dbl.ofRat_002, updateError_L1_fin fresh _ 0 rfl, e1, Dbl.ofRat_d002]

theorem scenario_second :
    ((fresh.updateError (Dbl.ofRat (2 / 100))).updateError (Dbl.ofRat (-(5 / 1000)))).L1Error =
      Dbl.fin (7205759403792794 / 2 ^ 58) := by
  have e1 : |(-(5764607523034235 / 2 ^ 60) : ℚ)| = 5764607523034235 / 2 ^ 60 := by
    rw [abs_neg, abs_of_nonneg (by norm_num)]
  rw [Dbl.ofRat_neg_of_fin Dbl.ofRat_0005, updateError_L1_fin _ _ _ scenario_first, e1,
    Dbl.ofRat_d002_add_d0005]

/-- C14: with a recognised norm and eps not negative, after resetError
getError is 0 and moar returns false for every iteration count.  Scenario
(maxIters = 5, eps = 0.01, alpha = 0.3, modelSize = 10, L1 norm, from
construction): updateError(0.02) gives getError = 0.02 and moar(1) = true,
updateError(-0.005) gives getError = 0.025 and moar(2) = true, resetError
gives getError = 0 and moar(3) = false. -/
theorem resetError_stops (s : CCDrAlgorithm) (hn : s.errorNorm_ = L1 ∨ s.errorNorm_ = LINF)
    (he : Dbl.le (Dbl.fin 0) s.eps = true) :
    (s.resetError.getError = Dbl.fin 0 ∧ ∀ i : ℤ, s.resetError.moar i = false) ∧
    (construct 5 (Dbl.ofRat (1 / 100)) (Dbl.ofRat (3 / 10)) 10 [[0, 1], [1, 0]] false false L1 =
        some fresh ∧
      (fresh.updateError (Dbl.ofRat (2 / 100))).getError = Dbl.ofRat (2 / 100) ∧
      (fresh.updateError (Dbl.ofRat (2 / 100))).moar 1 = true ∧
      ((fresh.updateError (Dbl.ofRat (2 / 100))).updateError
        (Dbl.ofRat (-(5 / 1000)))).getError = Dbl.ofRat (25 / 1000) ∧
      ((fresh.updateError (Dbl.ofRat (2 / 100))).updateError
        (Dbl.ofRat (-(5 / 1000)))).moar 2 = true ∧
      ((fresh.updateError (Dbl.ofRat (2 / 100))).updateError
        (Dbl.ofRat (-(5 / 1000)))).resetError.getError = Dbl.fin 0 ∧
      ((fresh.updateError (Dbl.ofRat (2 / 100))).updateError
        (Dbl.ofRat (-(5 / 1000)))).resetError.moar 3 = false) := by
  refine ⟨⟨(moar_resetError s hn he 0).1, fun i => (moar_resetError s hn he i).2⟩, ?_⟩
  have hg1 : (fresh.updateError (Dbl.ofRat (2 / 100))).getError =
      Dbl.fin (5764607523034235 / 2 ^ 58) := by
    rw [getError_of_L1 _ rfl, scenario_first]
  have hg2 : ((fresh.updateError (Dbl.ofRat (2 / 100))).updateError
      (Dbl.ofRat (-(5 / 1000)))).getError = Dbl.fin (7205759403792794 / 2 ^ 58) := by
    rw [getError_of_L1 _ rfl, scenario_second]
  have heps : ∀ d1 d2 : Dbl, ((fresh.updateError d1).updateError d2).eps =
      Dbl.fin (5764607523034235 / 2 ^ 59) := fun _ _ => rfl
  have heps1 : ∀ d1 : Dbl, (fresh.updateError d1).eps = Dbl.fin (5764607523034235 / 2 ^ 59) :=
    fun _ => rfl
  have hfresh_eps : Dbl.le (Dbl.fin 0) (Dbl.fin (5764607523034235 / 2 ^ 59)) = true := by
    simp only [Dbl.le, decide_eq_true_eq]; norm_num
  refine ⟨construct_fresh, ?_, ?_, ?_, ?_, ?_, ?_⟩
  · rw [hg1, Dbl.ofRat_002]
  · rw [moar_eq, hg1, heps1]
    have : Dbl.gt (Dbl.fin (5764607523034235 / 2 ^ 58)) (Dbl.fin (5764607523034235 / 2 ^ 59)) =
        true := by
      simp only [Dbl.gt, Dbl.lt, decide_eq_true_eq]; norm_num
    rw [this]; decide
  · rw [hg2, Dbl.ofRat_0025]
  · rw [moar_eq, hg2, heps]
    have : Dbl.gt (Dbl.fin (7205759403792794 / 2 ^ 58)) (Dbl.fin (5764607523034235 / 2 ^ 59)) =
        true := by
      simp only [Dbl.gt, Dbl.lt, decide_eq_true_eq]; norm_num
    rw [this]; decide
  · exact (moar_resetError _ (Or.inl rfl) (by rw [heps]; exact hfresh_eps) 3).1
  · exact (moar_resetError _ (Or.inl rfl) (by rw [heps]; exact hfresh_eps) 3).2

theorem resetError_stops_witness :
    (midFit.errorNorm_ = L1 ∨ midFit.errorNorm_ = LINF) ∧
    Dbl.le (Dbl.fin 0) midFit.eps = true ∧
    midFit.resetError.getError = Dbl.fin 0 ∧ midFit.resetError.moar 3 = false :=
  ⟨Or.inl rfl, by simp [midFit, Dbl.le],
    (resetError_stops midFit (Or.inl rfl) (by simp [midFit, Dbl.le])).1.1,
    (resetError_stops midFit (Or.inl rfl) (by simp [midFit, Dbl.le])).1.2 3⟩

end CCDrAlgorithm

/-! ## setOrder -/

namespace CCDrAlgorithm

/-- C15: setOrder changes nothing when randomizeOrder is false (the whole
state, and so the number of blocks and every block, stay as they are), and
in either case it leaves the stop flags, numSweeps, both accumulators and
every configuration member unchanged. -/
theorem setOrder_spec (shuffle : BlockList → BlockList) (s : CCDrAlgorithm) :
    (s.randomizeOrder = false →
      s.setOrder shuffle = s ∧ (s.setOrder shuffle).numBlocks = s.numBlocks ∧
      ∀ k : ℕ, (s.setOrder shuffle).getBlock k = s.getBlock k) ∧
    (s.randomizeOrder = true → (s.setOrder shuffle).blocks = shuffle s.blocks) ∧
    (s.setOrder shuffle).stopFlags = s.stopFlags ∧
    (s.setOrder shuffle).numSweeps = s.numSweeps ∧
    (s.setOrder shuffle).L1Error = s.L1Error ∧
    (s.setOrder shuffle).LinfError = s.LinfError ∧
    (s.setOrder shuffle).maxIters = s.maxIters ∧
    (s.setOrder shuffle).eps = s.eps ∧
    (s.setOrder shuffle).alpha = s.alpha ∧
    (s.setOrder shuffle).maxEdges = s.maxEdges ∧
    (s.setOrder shuffle).randomizeOrder = s.randomizeOrder ∧
    (s.setOrder shuffle).updateSigmas_ = s.updateSigmas_ ∧
    (s.setOrder shuffle).errorNorm_ = s.errorNorm_ := by
  refine ⟨?_, ?_, ?_⟩
  · intro h
    have : s.setOrder shuffle = s := by simp [setOrder, h]
    rw [this]
    exact ⟨rfl, rfl, fun _ => rfl⟩
  · intro h
    simp [setOrder, h]
  · unfold setOrder
    split_ifs <;> exact ⟨rfl, rfl, rfl, rfl, rfl, rfl, rfl, rfl, rfl, rfl, rfl⟩

end CCDrAlgorithm

/-! ## Convergence at equality -/

namespace Dbl

theorem gt_eq_false_iff_le {a b : Dbl} (ha : a ≠ nan) (hb : b ≠ nan) :
    gt a b = false ↔ le a b = true := by
  cases a <;> cases b <;> simp_all [gt, lt, le]

end Dbl

namespace CCDrAlgorithm

/-- With the LINF norm, an iteration count between 0 and maxIters and
accumulators that are not NaN, `moar` stops exactly when LinfError <= eps. -/
theorem moar_linf_false_iff (s : CCDrAlgorithm) (i : ℤ) (hn : s.errorNorm_ = LINF)
    (h0 : 0 ≤ i) (hi : i ≤ (s.maxIters : ℤ)) (h32 : IsInt32 i)
    (h1 : s.LinfError ≠ Dbl.nan) (h2 : s.eps ≠ Dbl.nan) :
    s.moar i = false ↔ Dbl.le s.LinfError s.eps = true := by
  have hm := (moar_iff_of_nonneg s i h0 h32).1
  rw [getError_of_LINF s hn] at hm
  rw [← Dbl.gt_eq_false_iff_le h1 h2]
  constructor
  · intro h
    by_contra hg
    have hg' : Dbl.gt s.LinfError s.eps = true := by simpa using hg
    rw [hm.mpr ⟨hg', hi⟩] at h
    exact absurd h (by simp)
  · intro h
    by_contra hg
    have hg' : s.moar i = true := by simpa using hg
    rw [(hm.mp hg').1] at h
    exact absurd h (by simp)

/-- C16 (counterexample): with the LINF norm, LinfError = eps = 1/128 and
iteration count 0 <= maxIters, moar returns false although LinfError < eps
does not hold: the iteration stops at equality. -/
theorem moar_stops_at_equality :
    ({ midFit with errorNorm_ := LINF, LinfError := Dbl.fin (1 / 128) } : CCDrAlgorithm).moar 0 =
      false ∧
    Dbl.lt ({ midFit with errorNorm_ := LINF, LinfError := Dbl.fin (1 / 128) } :
      CCDrAlgorithm).LinfError
      ({ midFit with errorNorm_ := LINF, LinfError := Dbl.fin (1 / 128) } : CCDrAlgorithm).eps =
      false ∧
    ({ midFit with errorNorm_ := LINF, LinfError := Dbl.fin (1 / 128) } : CCDrAlgorithm).LinfError =
      ({ midFit with errorNorm_ := LINF, LinfError := Dbl.fin (1 / 128) } : CCDrAlgorithm).eps ∧
    (0 : ℤ) ≤ (({ midFit with errorNorm_ := LINF, LinfError := Dbl.fin (1 / 128) } :
      CCDrAlgorithm).maxIters : ℤ) := by
  refine ⟨?_, ?_, rfl, by decide⟩
  · have h := (moar_iff_of_nonneg
      ({ midFit with errorNorm_ := LINF, LinfError := Dbl.fin (1 / 128) } : CCDrAlgorithm) 0
      (le_refl _) (by decide)).2
    exact h rfl
  · exact Dbl.lt_irrefl _

theorem gt_eq_false_of_lt {a b : Dbl} (h : Dbl.lt a b = true) : Dbl.gt a b = false := by
  cases a <;> cases b <;> simp_all [Dbl.gt, Dbl.lt]
  linarith

/-- C16 (amended): with errorNorm_ = LINF, an iteration count with
0 <= iters <= maxIters, and LinfError and eps other than NaN, moar(iters)
returns false if and only if LinfError <= eps; in particular it returns false
when LinfError < eps and also when LinfError = eps. -/
theorem moar_linf_stops_iff_le (s : CCDrAlgorithm) (i : ℤ) (hn : s.errorNorm_ = LINF)
    (h0 : 0 ≤ i) (hi : i ≤ (s.maxIters : ℤ)) (h32 : IsInt32 i)
    (h1 : s.LinfError ≠ Dbl.nan) (h2 : s.eps ≠ Dbl.nan) :
    (s.moar i = false ↔ Dbl.le s.LinfError s.eps = true) ∧
    (Dbl.lt s.LinfError s.eps = true → s.moar i = false) ∧
    (s.LinfError = s.eps → s.moar i = false) := by
  have hiff := moar_linf_false_iff s i hn h0 hi h32 h1 h2
  refine ⟨hiff, ?_, ?_⟩
  · intro hlt
    rw [hiff, ← Dbl.gt_eq_false_iff_le h1 h2]
    exact gt_eq_false_of_lt hlt
  · intro heq
    rw [hiff, heq]
    exact Dbl.le_refl_of_ne_nan h2

theorem moar_linf_stops_iff_le_witness :
    ({ midFit with errorNorm_ := LINF, LinfError := Dbl.fin (1 / 128) } :
      CCDrAlgorithm).errorNorm_ = LINF ∧
    (0 : ℤ) ≤ (({ midFit with errorNorm_ := LINF, LinfError := Dbl.fin (1 / 128) } :
      CCDrAlgorithm).maxIters : ℤ) ∧
    (({ midFit with errorNorm_ := LINF, LinfError := Dbl.fin (1 / 128) } :
        CCDrAlgorithm).moar 0 = false ↔
      Dbl.le ({ midFit with errorNorm_ := LINF, LinfError := Dbl.fin (1 / 128) } :
        CCDrAlgorithm).LinfError
        ({ midFit with errorNorm_ := LINF, LinfError := Dbl.fin (1 / 128) } :
          CCDrAlgorithm).eps = true) :=
  ⟨rfl, by decide,
    (moar_linf_stops_iff_le
      ({ midFit with errorNorm_ := LINF, LinfError := Dbl.fin (1 / 128) } : CCDrAlgorithm) 0
      rfl (le_refl _) (by decide) (by decide) (by simp) (by simp [midFit])).1⟩

end CCDrAlgorithm

/-! ## The threshold on the number of edges -/

namespace Dbl

theorem ofRat_half : ofRat (1 / 2) = fin (1 / 2) :=
  ofRat_exact (-1) (2 ^ 52) (by norm_num) (by norm_num) (by norm_num) (by norm_num) (by norm_num)

theorem ofRat_five_64 : ofRat (5 / 64) = fin (5 / 64) :=
  ofRat_exact (-4) (5 * 2 ^ 50) (by norm_num) (by norm_num) (by norm_num) (by norm_num)
    (by norm_num)

theorem ofRat_sixth : ofRat (1 / 6) = fin (6004799503160661 / 2 ^ 55) := by
  have h := @ofRat_of_near (1 / 6) (-3) 6004799503160661 (by norm_num) (by norm_num)
    (by norm_num) (by norm_num [abs_lt]) (by norm_num) (by norm_num)
  rw [h]; norm_num

/-- The product of the double nearest to 1/6 and 3 is a tie that rounds up to
0.5, although the real product is below 0.5. -/
theorem ofRat_sixth_mul_three : ofRat (6004799503160661 / 2 ^ 55 * 3) = fin (1 / 2) := by
  have hq : (6004799503160661 / 2 ^ 55 * 3 : ℚ) / 2 ^ ((-2 : ℤ) - 52) =
      ((9007199254740991 : ℤ) : ℚ) + 1 / 2 := by norm_num
  have h := @ofRat_eq_of_round (6004799503160661 / 2 ^ 55 * 3) (-2) 9007199254740992
    (by norm_num) (by norm_num) (by norm_num)
    (by rw [hq, roundHalfEven_add_half]; norm_num) (by norm_num) (by norm_num)
  rw [h]; norm_num

end Dbl

theorem rnd64_half : rnd64 (1 / 2) = 1 / 2 :=
  ((Dbl.ofRat_eq_fin_iff (1 / 2)).mp Dbl.ofRat_half).1

namespace CCDrAlgorithm

/-- C18: for alpha in (0,1] and a 32-bit modelSize the constructor is defined
and stores a threshold with 0 <= maxEdges <= modelSize, which is 0 exactly
when the double product alpha × modelSize is below 0.5 (and then the real
product is below 0.5 too). -/
theorem maxEdges_bounds (m : ℕ) (e : Dbl) (a : ℚ) (p : ℕ) (b : BlockList) (r u : Bool)
    (t : errtype) (ha0 : 0 < a) (ha1 : a ≤ 1) (hp : p < 2 ^ 32) :
    ∃ s, construct m e (Dbl.fin a) p b r u t = some s ∧ 0 ≤ s.maxEdges ∧ s.maxEdges ≤ p ∧
      (s.maxEdges = 0 ↔
        Dbl.lt (Dbl.mul (Dbl.fin a) (Dbl.ofUInt p)) (Dbl.fin (1 / 2)) = true) ∧
      (s.maxEdges = 0 → a * p < 1 / 2) ∧
      (p < 2 ^ 31 → s.edgeThreshold = (s.maxEdges : ℤ)) := by
  obtain ⟨k, hkp, hk, hround⟩ := round_mul_le a p ha0 ha1 hp
  obtain ⟨s, hs, hm, -⟩ := construct_of_round m e (Dbl.fin a) p b r u t k
    (lt_of_le_of_lt hkp hp) hround
  have hp0 : (0 : ℚ) ≤ p := Nat.cast_nonneg p
  have hp53 : (p : ℚ) < 2 ^ 53 := by
    have : p < 2 ^ 53 := lt_trans hp (by norm_num)
    exact_mod_cast this
  have hx0 : 0 ≤ a * p := mul_nonneg ha0.le hp0
  have hxp : a * p ≤ p := by
    have : a * p ≤ 1 * p := mul_le_mul_of_nonneg_right ha1 hp0
    linarith
  obtain ⟨hmul, hr0, -⟩ := Dbl.ofRat_of_small hx0 (lt_of_le_of_lt hxp hp53)
  have hzero : k = 0 ↔ rnd64 (a * p) < 1 / 2 := by
    constructor
    · intro h0
      have : ⌊rnd64 (a * p) + 1 / 2⌋ = 0 := by rw [← hk, h0]; rfl
      have h1 := (Int.floor_eq_zero_iff.mp this).2
      linarith
    · intro hlt
      have : ⌊rnd64 (a * p) + 1 / 2⌋ = 0 :=
        Int.floor_eq_zero_iff.mpr ⟨by linarith, by linarith⟩
      rw [this] at hk
      exact_mod_cast hk
  refine ⟨s, hs, Nat.zero_le _, hm ▸ hkp, ?_, ?_, ?_⟩
  · rw [hm, hzero, Dbl.ofUInt, Dbl.mul_fin_fin, hmul]
    simp [Dbl.lt]
  · rw [hm, hzero]
    intro hlt
    by_contra hge
    have := rnd64_mono (not_lt.mp hge)
    rw [rnd64_half] at this
    linarith
  · intro hp31
    rw [edgeThreshold, uintToInt, hm, if_pos (lt_of_le_of_lt hkp hp31)]

theorem maxEdges_bounds_witness :
    (0 : ℚ) < 1 / 128 ∧ (1 / 128 : ℚ) ≤ 1 ∧ 10 < 2 ^ 32 ∧
    ∃ s, construct 5 (Dbl.fin 0) (Dbl.fin (1 / 128)) 10 [] false false L1 = some s ∧
      s.maxEdges ≤ 10 ∧ s.maxEdges = 0 := by
  refine ⟨by norm_num, by norm_num, by norm_num, ?_⟩
  obtain ⟨s, hs, -, hle, hiff, -⟩ := maxEdges_bounds 5 (Dbl.fin 0) (1 / 128) 10 [] false false L1
    (by norm_num) (by norm_num) (by norm_num)
  refine ⟨s, hs, hle, hiff.mpr ?_⟩
  have e1 : (1 / 128 : ℚ) * ((10 : ℕ) : ℚ) = 5 / 64 := by norm_num
  rw [Dbl.ofUInt, Dbl.mul_fin_fin, e1, Dbl.ofRat_five_64]
  simp only [Dbl.lt, decide_eq_true_eq]; norm_num

/-- With alpha the double nearest to 1/6 and modelSize = 3 the real product is
below 0.5, the double product is 0.5, and the constructor stores
maxEdges = 1. -/
theorem maxEdges_tie :
    (6004799503160661 / 2 ^ 55 : ℚ) * 3 < 1 / 2 ∧
    Dbl.mul (Dbl.ofRat (1 / 6)) (Dbl.ofUInt 3) = Dbl.fin (1 / 2) ∧
    ∃ s, construct 5 (Dbl.fin 0) (Dbl.ofRat (1 / 6)) 3 [] false false L1 = some s ∧
      s.maxEdges = 1 := by
  have e1 : (6004799503160661 / 2 ^ 55 : ℚ) * ((3 : ℕ) : ℚ) = 6004799503160661 / 2 ^ 55 * 3 := by
    norm_num
  have hmul : Dbl.mul (Dbl.ofRat (1 / 6)) (Dbl.ofUInt 3) = Dbl.fin (1 / 2) := by
    rw [Dbl.ofRat_sixth, Dbl.ofUInt, Dbl.mul_fin_fin, e1, Dbl.ofRat_sixth_mul_three]
  refine ⟨by norm_num, hmul, ?_⟩
  have e2 : ⌊(1 / 2 : ℚ) + 1 / 2⌋ = ((1 : ℕ) : ℤ) := by
    rw [Int.floor_eq_iff]; constructor <;> norm_num
  obtain ⟨s, hs, hm, -⟩ := construct_of_round 5 (Dbl.fin 0) (Dbl.ofRat (1 / 6)) 3 [] false
    false L1 1 (by norm_num) (by rw [hmul, Dbl.round_fin_of_nonneg (by norm_num), e2])
  exact ⟨s, hs, hm⟩

end CCDrAlgorithm

/-! ## Reachable states -/

namespace CCDrAlgorithm

theorem accumulators_ordered_witness :
    construct 5 (Dbl.ofRat (1 / 100)) (Dbl.ofRat (3 / 10)) 10 [[0, 1], [1, 0]] false false L1 =
      some fresh ∧
    Dbl.le (fresh.run id [Op.updateError (Dbl.fin 1), Op.addSweep,
      Op.updateError (Dbl.fin (2 ^ 53))]).LinfError
      (fresh.run id [Op.updateError (Dbl.fin 1), Op.addSweep,
        Op.updateError (Dbl.fin (2 ^ 53))]).L1Error = true :=
  ⟨construct_fresh,
    (accumulators_ordered id 5 _ _ 10 _ false false L1 fresh
      [Op.updateError (Dbl.fin 1), Op.addSweep, Op.updateError (Dbl.fin (2 ^ 53))]
      construct_fresh (by
        intro op hop
        simp only [List.mem_cons, List.mem_singleton, List.not_mem_nil, or_false] at hop
        rcases hop with rfl | rfl | rfl
        · exact Dbl.ofRat_one
        · trivial
        · exact Dbl.ofRat_two_pow_53)).2.1⟩

theorem moar_step (shuffle : BlockList → BlockList) (s : CCDrAlgorithm) (op : Op) (i : ℤ)
    (hv : Dbl.Valid s.L1Error) (hr : op ≠ Op.resetError) (hop : op.Finite)
    (h : s.moar i = true) : (s.step shuffle op).moar i = true := by
  cases op with
  | updateError e =>
    cases e with
    | fin q => exact moar_updateError s q i hv h
    | pinf => exact absurd hop id
    | ninf => exact absurd hop id
    | nan => exact absurd hop id
  | resetError => exact absurd rfl hr
  | resetFlags => exact h
  | activeSetChanged => exact h
  | belowThreshold => exact h
  | addSweep => exact h
  | setOrder =>
    simp only [step, setOrder]
    split_ifs
    · exact h
    · exact h

/-- C19: on a state whose accumulators are doubles other than NaN,
updateError with a finite delta decreases neither L1Error nor LinfError; hence
a true moar(i) stays true after updateError, and after every call other than
resetError. -/
theorem updateError_monotone (shuffle : BlockList → BlockList) (s : CCDrAlgorithm) (q : ℚ)
    (hv : Dbl.Valid s.L1Error) (h1 : s.L1Error ≠ Dbl.nan) (h2 : s.LinfError ≠ Dbl.nan) :
    Dbl.le s.L1Error (s.updateError (Dbl.fin q)).L1Error = true ∧
    Dbl.le s.LinfError (s.updateError (Dbl.fin q)).LinfError = true ∧
    (∀ i : ℤ, s.moar i = true → (s.updateError (Dbl.fin q)).moar i = true) ∧
    (∀ (op : Op) (i : ℤ), op ≠ Op.resetError → op.Finite → s.moar i = true →
      (s.step shuffle op).moar i = true) :=
  ⟨updateError_L1_le s q hv h1, (updateError_Linf_cases s q h2).2.1,
    fun i h => moar_updateError s q i hv h,
    fun op i hr hop h => moar_step shuffle s op i hv hr hop h⟩

theorem updateError_monotone_witness :
    Dbl.Valid fresh.L1Error ∧ fresh.L1Error ≠ Dbl.nan ∧ fresh.LinfError ≠ Dbl.nan ∧
    Dbl.le fresh.L1Error (fresh.updateError (Dbl.fin (-3))).L1Error = true ∧
    Dbl.le fresh.LinfError (fresh.updateError (Dbl.fin (-3))).LinfError = true :=
  ⟨Dbl.ofRat_zero, by simp [fresh], by simp [fresh],
    (updateError_monotone id fresh (-3) Dbl.ofRat_zero (by simp [fresh]) (by simp [fresh])).1,
    (updateError_monotone id fresh (-3) Dbl.ofRat_zero (by simp [fresh]) (by simp [fresh])).2.1⟩

theorem getStopFlag_eq_none_iff (s : CCDrAlgorithm) (h : s.stopFlags.length = 2) (f : ℤ) :
    s.getStopFlag f = none ↔ f ≠ 0 ∧ f ≠ 1 := by
  unfold getStopFlag
  by_cases hf : 0 ≤ f
  · rw [if_pos hf, List.get?_eq_none, h]
    omega
  · rw [if_neg hf]
    constructor
    · intro _; omega
    · intro _; rfl

/-- C20: in every state reached from construction stopFlags has exactly two
entries, each 0 or 1; getStopFlag(0) and getStopFlag(1) are in bounds and
return 0 or 1, the product that keepGoing computes is 0 or 1, and
getStopFlag(f) is out of range exactly when f is neither 0 nor 1. -/
theorem stopFlags_wellformed (shuffle : BlockList → BlockList) (m : ℕ) (e a : Dbl) (p : ℕ)
    (b : BlockList) (r u : Bool) (t : errtype) (s0 : CCDrAlgorithm) (ops : List Op)
    (hm : m < UINT_SIZE) (h0 : construct m e a p b r u t = some s0) :
    (s0.run shuffle ops).stopFlags.length = 2 ∧
    (∀ f ∈ (s0.run shuffle ops).stopFlags, f = 0 ∨ f = 1) ∧
    ((s0.run shuffle ops).getStopFlag 0 = some 0 ∨ (s0.run shuffle ops).getStopFlag 0 = some 1) ∧
    ((s0.run shuffle ops).getStopFlag 1 = some 0 ∨ (s0.run shuffle ops).getStopFlag 1 = some 1) ∧
    ((s0.run shuffle ops).stopFlags.foldl (fun prod f => prod * f) 1 = 0 ∨
      (s0.run shuffle ops).stopFlags.foldl (fun prod f => prod * f) 1 = 1) ∧
    (∀ f : ℤ, (s0.run shuffle ops).getStopFlag f = none ↔ f ≠ 0 ∧ f ≠ 1) := by
  have hinv := run_inv shuffle ops s0 (construct_inv m e a p b r u t s0 hm h0)
  obtain ⟨f0, f1, hs, hf0, hf1⟩ := hinv.flags
  obtain ⟨-, -, -, hlen, hval⟩ := hinv
  refine ⟨hlen, hval, ?_, ?_, ?_, getStopFlag_eq_none_iff _ hlen⟩
  · rcases hf0 with rfl | rfl <;> simp [getStopFlag, hs]
  · rcases hf1 with rfl | rfl <;> simp [getStopFlag, hs]
  · rw [hs]
    rcases hf0 with rfl | rfl <;> rcases hf1 with rfl | rfl <;> simp

theorem stopFlags_wellformed_witness :
    (5 : ℕ) < UINT_SIZE ∧
    construct 5 (Dbl.ofRat (1 / 100)) (Dbl.ofRat (3 / 10)) 10 [[0, 1], [1, 0]] false false L1 =
      some fresh ∧
    (fresh.run id [Op.activeSetChanged, Op.addSweep, Op.resetFlags,
      Op.belowThreshold]).stopFlags.length = 2 :=
  ⟨by decide, construct_fresh,
    (stopFlags_wellformed id 5 _ _ 10 _ false false L1 fresh
      [Op.activeSetChanged, Op.addSweep, Op.resetFlags, Op.belowThreshold] (by decide)
      construct_fresh).1⟩

end CCDrAlgorithm
